import Mathlib

/-!
Verification of the B-tree storage engine specification of `sqlite_rs`.

The repository ships the internal header `src/btreeInt.h` (the on-disk
format documentation and the page/transaction constants), the header
`src/hash.h`, and the hash-table insert routine `sqlite3HashInsert` in
`src/hash.c`.  The bodies of the page codec, cell codec, freelist,
pointer-map, cursor and balancer routines are not part of the source
slice; wherever a definition below models such a missing routine, its doc
comment starts with "Modelled from the spec:" and names the missing code.
Definitions that embed code or constants that are present in the source
keep the source's names.
-/

set_option maxRecDepth 4000

/-! ## Variable-length integers (Page Codec) -/

/-- Error raised when a varint is decoded from a buffer shorter than the
number of bytes its encoding occupies. -/
inductive VarintError where
  | Truncated
deriving DecidableEq

/-- Modelled from the spec: the body of `sqlite3PutVarint` is absent from
`src/` (only its declaration appears, `src/hash.c:2722`).  `encHi`
produces the leading continuation bytes of a value: big-endian 7-bit
groups, each with bit 8 (value 128) set. -/
def encHi (v : Nat) : List Nat :=
  if h : v = 0 then [] else encHi (v / 128) ++ [v % 128 + 128]
decreasing_by exact Nat.div_lt_self (Nat.pos_of_ne_zero h) (by omega)

/-- Modelled from the spec: fixed-width variant of `encHi` used for the
nine-byte case; `grp x n` is exactly `n` big-endian 7-bit groups of `x`,
each with the continuation bit set. -/
def grp : Nat → Nat → List Nat
  | _, 0 => []
  | x, n + 1 => grp (x / 128) n ++ [x % 128 + 128]

/-- Modelled from the spec: `sqlite3PutVarint` (declared `src/hash.c:2722`,
body absent).  Per the format comment in `src/btreeInt.h` lines 170-184: a
variable-length integer is 1 to 9 bytes, lower 7 bits of each byte used,
all bytes but the last have bit 8 set, most significant byte first; as a
special case all 8 bits of the 9th byte are used as data, so values of 57
or more significant bits take the nine-byte form. -/
def encodeVarint (v : Nat) : List Nat :=
  if v < 2 ^ 56 then encHi (v / 128) ++ [v % 128]
  else grp (v / 256) 8 ++ [v % 256]

/-- Modelled from the spec: the 7-bit group count of a value (at least 1). -/
def len7 (v : Nat) : Nat :=
  if h : v < 128 then 1 else 1 + len7 (v / 128)
decreasing_by exact Nat.div_lt_self (by omega) (by omega)

/-- Modelled from the spec: `sqlite3VarintLen` (declared `src/hash.c:2725`,
body absent): the number of bytes `encodeVarint` needs for a value. -/
def varintLen (v : Nat) : Nat :=
  if v < 2 ^ 56 then len7 v else 9

/-- Modelled from the spec: the accumulator loop of `sqlite3GetVarint`
(declared `src/hash.c:2723`, body absent).  `acc` is the value of the
bytes already consumed and `i` their number; a byte read at position 8
(the ninth byte) contributes a full 8 bits, any other byte contributes
its low 7 bits and terminates the integer when bit 8 is clear.  Running
out of buffer yields `Truncated`. -/
def decodeAux : List Nat → Nat → Nat → Except VarintError (Nat × Nat)
  | [], _, _ => .error .Truncated
  | b :: rest, acc, i =>
    if i = 8 then .ok (acc * 256 + b, 9)
    else if b < 128 then .ok (acc * 128 + b, i + 1)
    else decodeAux rest (acc * 128 + (b - 128)) (i + 1)

/-- Modelled from the spec: `sqlite3GetVarint` (declared `src/hash.c:2723`,
body absent).  Returns the decoded value and the number of bytes
consumed. -/
def decodeVarint (bs : List Nat) : Except VarintError (Nat × Nat) :=
  decodeAux bs 0 0

theorem encodeVarint_low {v : Nat} (h : v < 2 ^ 56) :
    encodeVarint v = encHi (v / 128) ++ [v % 128] := by
  have h2 : v < 72057594037927936 := by omega
  unfold encodeVarint
  simp [h2]

theorem encodeVarint_high {v : Nat} (h : ¬ v < 2 ^ 56) :
    encodeVarint v = grp (v / 256) 8 ++ [v % 256] := by
  have h2 : ¬ v < 72057594037927936 := by omega
  unfold encodeVarint
  simp [h2]

theorem varintLen_low {v : Nat} (h : v < 2 ^ 56) : varintLen v = len7 v := by
  have h2 : v < 72057594037927936 := by omega
  unfold varintLen
  simp [h2]

theorem varintLen_high {v : Nat} (h : ¬ v < 2 ^ 56) : varintLen v = 9 := by
  have h2 : ¬ v < 72057594037927936 := by omega
  unfold varintLen
  simp [h2]

theorem encHi_zero : encHi 0 = [] := by
  rw [encHi]
  simp

theorem encHi_of_ne (v : Nat) (h : v ≠ 0) :
    encHi v = encHi (v / 128) ++ [v % 128 + 128] := by
  rw [encHi]
  simp [h]

theorem len7_of_lt {v : Nat} (h : v < 128) : len7 v = 1 := by
  rw [len7]
  simp [h]

theorem len7_of_ge {v : Nat} (h : 128 ≤ v) : len7 v = 1 + len7 (v / 128) := by
  rw [len7]
  simp [Nat.not_lt_of_ge h]

theorem encHi_mem {v : Nat} : ∀ b ∈ encHi v, 128 ≤ b ∧ b < 256 := by
  induction v using Nat.strong_induction_on with
  | _ v ih =>
    by_cases h : v = 0
    · subst h
      simp [encHi_zero]
    · rw [encHi_of_ne v h]
      intro b hb
      rcases List.mem_append.mp hb with hb | hb
      · exact ih (v / 128) (Nat.div_lt_self (Nat.pos_of_ne_zero h) (by omega)) b hb
      · simp only [List.mem_singleton] at hb
        subst hb
        have := Nat.mod_lt v (y := 128) (by omega)
        omega

theorem encHi_length {v : Nat} :
    (encHi v).length = if v = 0 then 0 else len7 v := by
  induction v using Nat.strong_induction_on with
  | _ v ih =>
    by_cases h : v = 0
    · simp [h, encHi_zero]
    · rw [encHi_of_ne v h]
      rw [List.length_append]
      by_cases h2 : v < 128
      · have hd : v / 128 = 0 := Nat.div_eq_of_lt h2
        simp [hd, encHi_zero, h, len7_of_lt h2]
      · have hd : v / 128 ≠ 0 := by
          have h3 : 128 ≤ v := by omega
          have := (Nat.one_le_div_iff (by omega : 0 < 128)).mpr h3
          omega
        rw [ih (v / 128) (Nat.div_lt_self (Nat.pos_of_ne_zero h) (by omega))]
        simp [hd, h, len7_of_ge (by omega : 128 ≤ v)]
        omega

theorem len7_le {v k : Nat} (hk : 1 ≤ k) (hv : v < 128 ^ k) : len7 v ≤ k := by
  induction k generalizing v with
  | zero => omega
  | succ k ih =>
    by_cases h : v < 128
    · rw [len7_of_lt h]; omega
    · rw [len7_of_ge (by omega)]
      have hk1 : 1 ≤ k := by
        by_contra hc
        have : k = 0 := by omega
        subst this
        simp [pow_succ] at hv
        omega
      have hp : (128 : Nat) ^ (k + 1) = 128 * 128 ^ k := by ring
      have : v / 128 < 128 ^ k := Nat.div_lt_of_lt_mul (hp ▸ hv)
      have := ih hk1 this
      omega

theorem decodeAux_encHi {v : Nat} :
    ∀ (rest : List Nat) (acc i : Nat), i + (encHi v).length ≤ 8 →
      decodeAux (encHi v ++ rest) acc i
        = decodeAux rest (acc * 128 ^ (encHi v).length + v) (i + (encHi v).length) := by
  induction v using Nat.strong_induction_on with
  | _ v ih =>
    intro rest acc i hle
    by_cases h : v = 0
    · subst h
      simp [encHi_zero]
    · rw [encHi_of_ne v h] at hle ⊢
      rw [List.append_assoc]
      have hlt : v / 128 < v := Nat.div_lt_self (Nat.pos_of_ne_zero h) (by omega)
      rw [List.length_append] at hle
      rw [ih (v / 128) hlt ([v % 128 + 128] ++ rest) acc i (by simpa using by omega)]
      have hne : i + (encHi (v / 128)).length ≠ 8 := by
        simp only [List.length_singleton] at hle
        omega
      simp only [List.singleton_append, decodeAux, hne, if_false]
      have hge : ¬ (v % 128 + 128 < 128) := by omega
      simp only [hge, if_false]
      have hL : (encHi (v / 128) ++ [v % 128 + 128]).length
          = (encHi (v / 128)).length + 1 := by simp
      rw [hL]
      have h1 : v % 128 + 128 - 128 = v % 128 := by omega
      rw [h1]
      have harg : (acc * 128 ^ (encHi (v / 128)).length + v / 128) * 128 + v % 128
          = acc * 128 ^ ((encHi (v / 128)).length + 1) + v := by
        calc (acc * 128 ^ (encHi (v / 128)).length + v / 128) * 128 + v % 128
            = acc * (128 ^ (encHi (v / 128)).length * 128)
              + (128 * (v / 128) + v % 128) := by ring
          _ = acc * 128 ^ ((encHi (v / 128)).length + 1) + v := by
              rw [Nat.div_add_mod, pow_succ]
      rw [harg, Nat.add_assoc]
      simp

theorem grp_length {x n : Nat} : (grp x n).length = n := by
  induction n generalizing x with
  | zero => rfl
  | succ n ih => simp [grp, ih]

theorem grp_mem {x n : Nat} : ∀ b ∈ grp x n, 128 ≤ b ∧ b < 256 := by
  induction n generalizing x with
  | zero => simp [grp]
  | succ n ih =>
    intro b hb
    simp only [grp, List.mem_append, List.mem_singleton] at hb
    rcases hb with hb | hb
    · exact ih b hb
    · subst hb
      have := Nat.mod_lt x (y := 128) (by omega)
      omega

theorem decodeAux_grp {n : Nat} :
    ∀ (x : Nat) (rest : List Nat) (acc i : Nat), i + n ≤ 8 →
      decodeAux (grp x n ++ rest) acc i
        = decodeAux rest (acc * 128 ^ n + x % 128 ^ n) (i + n) := by
  induction n with
  | zero => intro x rest acc i _; simp [grp, Nat.mod_one]
  | succ n ih =>
    intro x rest acc i hle
    simp only [grp]
    rw [List.append_assoc]
    rw [ih (x / 128) ([x % 128 + 128] ++ rest) acc i (by omega)]
    have hne : i + n ≠ 8 := by omega
    simp only [List.singleton_append, decodeAux, hne, if_false]
    have hge : ¬ (x % 128 + 128 < 128) := by omega
    simp only [hge, if_false]
    have h1 : x % 128 + 128 - 128 = x % 128 := by omega
    rw [h1]
    have hmod : x % 128 ^ (n + 1) = x % 128 + 128 * (x / 128 % 128 ^ n) := by
      rw [pow_succ, mul_comm]
      exact Nat.mod_mul
    have harg : (acc * 128 ^ n + x / 128 % 128 ^ n) * 128 + x % 128
        = acc * 128 ^ (n + 1) + x % 128 ^ (n + 1) := by
      rw [hmod, pow_succ]
      ring
    rw [harg, Nat.add_assoc]
    simp

theorem encodeVarint_length {v : Nat} :
    (encodeVarint v).length = varintLen v := by
  by_cases h : v < 2 ^ 56
  · rw [encodeVarint_low h, varintLen_low h]
    simp only [List.length_append, List.length_singleton]
    rw [encHi_length]
    by_cases h2 : v < 128
    · have hd : v / 128 = 0 := Nat.div_eq_of_lt h2
      simp [hd, len7_of_lt h2]
    · have hd : v / 128 ≠ 0 := by
        have h3 : 128 ≤ v := by omega
        have := (Nat.one_le_div_iff (by omega : 0 < 128)).mpr h3
        omega
      simp only [hd, if_false]
      rw [len7_of_ge (by omega : 128 ≤ v)]
      omega
  · rw [encodeVarint_high h, varintLen_high h]
    simp [grp_length]

theorem varintLen_le {v : Nat} (hv : v < 2 ^ 64) : varintLen v ≤ 9 := by
  by_cases h : v < 2 ^ 56
  · rw [varintLen_low h]
    have h8 : v < 128 ^ 8 := by
      have : (128 : Nat) ^ 8 = 2 ^ 56 := by norm_num
      omega
    have := len7_le (by omega : (1 : Nat) ≤ 8) h8
    omega
  · rw [varintLen_high h]

theorem varintLen_pos {v : Nat} : 1 ≤ varintLen v := by
  by_cases h : v < 2 ^ 56
  · rw [varintLen_low h]
    by_cases h2 : v < 128
    · rw [len7_of_lt h2]
    · rw [len7_of_ge (by omega)]; omega
  · rw [varintLen_high h]; omega

theorem decodeVarint_encode {v : Nat} (hv : v < 2 ^ 64) (rest : List Nat) :
    decodeVarint (encodeVarint v ++ rest) = .ok (v, varintLen v) := by
  unfold decodeVarint
  by_cases h : v < 2 ^ 56
  · rw [encodeVarint_low h]
    have hlen : (encHi (v / 128)).length ≤ 7 := by
      by_cases h0 : v / 128 = 0
      · simp [h0, encHi_zero]
      · rw [encHi_length]
        simp only [h0, if_false]
        apply len7_le (by omega)
        have hq : v / 128 < 2 ^ 49 := by
          apply Nat.div_lt_of_lt_mul
          have : (2 : Nat) ^ 56 = 128 * 2 ^ 49 := by norm_num
          omega
        have : (128 : Nat) ^ 7 = 2 ^ 49 := by norm_num
        omega
    rw [List.append_assoc, decodeAux_encHi _ _ _ (by omega)]
    have hne : 0 + (encHi (v / 128)).length ≠ 8 := by omega
    simp only [List.singleton_append, decodeAux, hne, if_false]
    have hlt : v % 128 < 128 := Nat.mod_lt v (by omega)
    simp only [hlt, if_true]
    have hval : 0 * 128 ^ (encHi (v / 128)).length + v / 128 = v / 128 := by omega
    rw [hval]
    have heq : v / 128 * 128 + v % 128 = v := by
      have := Nat.div_add_mod v 128
      omega
    rw [heq]
    have hL : varintLen v = (encHi (v / 128)).length + 1 := by
      rw [← encodeVarint_length, encodeVarint_low h]
      simp
    rw [hL]
    norm_num
  · rw [encodeVarint_high h]
    rw [List.append_assoc, decodeAux_grp _ _ _ _ (by omega)]
    have hq : v / 256 < 128 ^ 8 := by
      apply Nat.div_lt_of_lt_mul
      have h1 : (256 : Nat) * 128 ^ 8 = 2 ^ 64 := by norm_num
      omega
    rw [Nat.mod_eq_of_lt hq]
    simp only [List.singleton_append, decodeAux, if_true]
    norm_num
    constructor
    · have := Nat.div_add_mod v 256
      omega
    · rw [varintLen_high h]

theorem decodeAux_all_high {l : List Nat} :
    ∀ (acc i : Nat), (∀ b ∈ l, 128 ≤ b) → i + l.length ≤ 8 →
      decodeAux l acc i = .error .Truncated := by
  induction l with
  | nil => intro acc i _ _; rfl
  | cons b rest ih =>
    intro acc i hb hle
    simp only [List.length_cons] at hle
    have hne : i ≠ 8 := by omega
    have hge : ¬ b < 128 := by
      have := hb b (by simp)
      omega
    simp only [decodeAux, hne, if_false, hge]
    exact ih _ _ (fun x hx => hb x (by simp [hx])) (by omega)

theorem decodeVarint_truncated {v k : Nat} (hv : v < 2 ^ 64) (hk : k < varintLen v) :
    decodeVarint ((encodeVarint v).take k) = .error .Truncated := by
  unfold decodeVarint
  by_cases h : v < 2 ^ 56
  · rw [encodeVarint_low h]
    have hL : varintLen v = (encHi (v / 128)).length + 1 := by
      rw [← encodeVarint_length, encodeVarint_low h]
      simp
    have hk2 : k ≤ (encHi (v / 128)).length := by omega
    rw [List.take_append_of_le_length hk2]
    apply decodeAux_all_high
    · intro b hb
      have hmem : b ∈ encHi (v / 128) :=
        (List.take_sublist k _).subset hb
      exact (encHi_mem b hmem).1
    · have := List.length_take k (encHi (v / 128))
      have h7 : (encHi (v / 128)).length ≤ 7 := by
        by_cases h0 : v / 128 = 0
        · simp [h0, encHi_zero]
        · rw [encHi_length]
          simp only [h0, if_false]
          apply len7_le (by omega)
          have hq : v / 128 < 2 ^ 49 := by
            apply Nat.div_lt_of_lt_mul
            have : (2 : Nat) ^ 56 = 128 * 2 ^ 49 := by norm_num
            omega
          have : (128 : Nat) ^ 7 = 2 ^ 49 := by norm_num
          omega
      simp only [List.length_take]
      omega
  · rw [encodeVarint_high h]
    have hL : varintLen v = 9 := varintLen_high h
    have hk2 : k ≤ (grp (v / 256) 8).length := by
      rw [grp_length]; omega
    rw [List.take_append_of_le_length hk2]
    apply decodeAux_all_high
    · intro b hb
      have hmem : b ∈ grp (v / 256) 8 :=
        (List.take_sublist k _).subset hb
      exact (grp_mem b hmem).1
    · simp only [List.length_take, grp_length]
      omega

/-- C1: for every 64-bit unsigned integer v, the variable-length encoding
uses the 7-bits-per-byte high-bit-continuation scheme and produces between
1 and 9 bytes (actual byte values, the 9th byte contributing a full 8
bits); decoding the encoded bytes returns exactly v together with the
number of bytes consumed, that number equals varintLen v, and decoding
from any buffer shorter than the required length fails with Truncated. -/
theorem varint_roundtrip (v : Nat) (hv : v < 2 ^ 64) :
    decodeVarint (encodeVarint v) = .ok (v, (encodeVarint v).length)
    ∧ (encodeVarint v).length = varintLen v
    ∧ 1 ≤ varintLen v ∧ varintLen v ≤ 9
    ∧ (∀ b ∈ encodeVarint v, b < 256)
    ∧ ∀ k, k < varintLen v →
        decodeVarint ((encodeVarint v).take k) = .error .Truncated := by
  refine ⟨?_, encodeVarint_length, varintLen_pos, varintLen_le hv, ?_, ?_⟩
  · have := decodeVarint_encode hv []
    rw [List.append_nil] at this
    rw [this, encodeVarint_length]
  · intro b hb
    by_cases h : v < 2 ^ 56
    · rw [encodeVarint_low h] at hb
      rcases List.mem_append.mp hb with hb | hb
      · exact (encHi_mem b hb).2
      · simp only [List.mem_singleton] at hb
        have := Nat.mod_lt v (y := 128) (by omega)
        omega
    · rw [encodeVarint_high h] at hb
      rcases List.mem_append.mp hb with hb | hb
      · exact (grp_mem b hb).2
      · simp only [List.mem_singleton] at hb
        have := Nat.mod_lt v (y := 256) (by omega)
        omega
  · intro k hk
    exact decodeVarint_truncated hv hk

theorem varint_roundtrip_witness :
    (0xfedcba9876543210 < 2 ^ 64)
    ∧ (decodeVarint (encodeVarint 0xfedcba9876543210)
          = .ok (0xfedcba9876543210, (encodeVarint 0xfedcba9876543210).length)
        ∧ (encodeVarint 0xfedcba9876543210).length = varintLen 0xfedcba9876543210
        ∧ 1 ≤ varintLen 0xfedcba9876543210 ∧ varintLen 0xfedcba9876543210 ≤ 9
        ∧ (∀ b ∈ encodeVarint 0xfedcba9876543210, b < 256)
        ∧ ∀ k, k < varintLen 0xfedcba9876543210 →
            decodeVarint ((encodeVarint 0xfedcba9876543210).take k)
              = .error .Truncated) :=
  ⟨by decide, varint_roundtrip 0xfedcba9876543210 (by decide)⟩

/-! ## Cell codec -/

/-- Error raised when a decoded cell would read past the page's end or its
header cannot be parsed. -/
inductive CellError where
  | CorruptCell
deriving DecidableEq

/-- Modelled from the spec: the decoded form of a B-tree cell for an
intkey (rowid) table, per the cell content layout comment in
`src/btreeInt.h` lines 189-196: an optional 4-byte left-child page number
(omitted when the leaf flag is set), the payload byte count, the key, and
the inline payload bytes. -/
structure Cell where
  child : Option Nat
  key : Nat
  payload : List Nat
deriving DecidableEq

/-- Modelled from the spec: big-endian 4-byte encoding of a page number
(the `put4byte` direction of the helpers named in `src/btreeInt.h` lines
397-403). -/
def be32 (x : Nat) : List Nat :=
  [x / 16777216 % 256, x / 65536 % 256, x / 256 % 256, x % 256]

/-- Modelled from the spec: the cell encoder of the Cell Codec (spec
section 4.2; the C routines are not in the source slice).  Layout per
`src/btreeInt.h` lines 189-196: left-child pointer when present, then the
payload-size varint, the key varint, then the inline payload. -/
def encodeCell (c : Cell) : List Nat :=
  (match c.child with
   | some p => be32 p
   | none => [])
  ++ encodeVarint c.payload.length ++ encodeVarint c.key ++ c.payload

/-- Modelled from the spec: the cell decoder of the Cell Codec (spec
section 4.2).  `leaf` is the page's leaf flag; on interior pages a 4-byte
left-child pointer is read first.  Returns the decoded cell and the
number of bytes consumed; a cell whose computed size would read past the
available bytes fails with `CorruptCell`. -/
def decodeCell (leaf : Bool) (bs : List Nat) : Except CellError (Cell × Nat) :=
  let step1 : Option (Option Nat × List Nat × Nat) :=
    if leaf then some (none, bs, 0)
    else match bs with
      | b0 :: b1 :: b2 :: b3 :: rest =>
          some (some (((b0 * 256 + b1) * 256 + b2) * 256 + b3), rest, 4)
      | _ => none
  match step1 with
  | none => .error .CorruptCell
  | some (child, r1, u1) =>
    match decodeVarint r1 with
    | .error _ => .error .CorruptCell
    | .ok (n, u2) =>
      match decodeVarint (r1.drop u2) with
      | .error _ => .error .CorruptCell
      | .ok (k, u3) =>
        if n ≤ ((r1.drop u2).drop u3).length then
          .ok ({ child := child, key := k,
                 payload := ((r1.drop u2).drop u3).take n },
               u1 + u2 + u3 + n)
        else .error .CorruptCell

theorem decodeCell_encode_leaf (c : Cell) (hchild : c.child = none)
    (hkey : c.key < 2 ^ 64) (hlen : c.payload.length < 2 ^ 64) :
    decodeCell true (encodeCell c) = .ok (c, (encodeCell c).length) := by
  unfold decodeCell encodeCell
  rw [hchild]
  simp only [if_true, List.nil_append]
  rw [List.append_assoc]
  rw [decodeVarint_encode hlen (encodeVarint c.key ++ c.payload)]
  dsimp only
  rw [← encodeVarint_length, List.drop_left]
  rw [decodeVarint_encode hkey c.payload]
  dsimp only
  rw [← encodeVarint_length, List.drop_left]
  simp only [le_refl, if_true, List.take_length]
  have hc : ({ child := none, key := c.key, payload := c.payload } : Cell) = c := by
    rw [← hchild]
  rw [hc]
  simp [List.length_append]
  omega

theorem decodeCell_encode_interior (c : Cell) (p : Nat) (hchild : c.child = some p)
    (hp : p < 2 ^ 32) (hkey : c.key < 2 ^ 64) (hlen : c.payload.length < 2 ^ 64) :
    decodeCell false (encodeCell c) = .ok (c, (encodeCell c).length) := by
  unfold decodeCell encodeCell
  rw [hchild]
  simp only [Bool.false_eq_true, if_false, be32, List.cons_append, List.nil_append]
  have hde : ((p / 16777216 % 256 * 256 + p / 65536 % 256) * 256
      + p / 256 % 256) * 256 + p % 256 = p := by omega
  rw [hde]
  rw [List.append_assoc]
  rw [decodeVarint_encode hlen (encodeVarint c.key ++ c.payload)]
  dsimp only
  rw [← encodeVarint_length, List.drop_left]
  rw [decodeVarint_encode hkey c.payload]
  dsimp only
  rw [← encodeVarint_length, List.drop_left]
  simp only [le_refl, if_true, List.take_length]
  have hc : ({ child := some p, key := c.key, payload := c.payload } : Cell) = c := by
    rw [← hchild]
  rw [hc]
  simp [List.length_append]
  omega

/-- C2: for every valid cell (a key, payload bytes, and a child pointer
exactly when the page is interior, the produced cell bytes fitting within
pageSize - 8 as `MX_CELL_SIZE` in `src/btreeInt.h:222` demands), decoding
the encoding of the cell yields the original cell together with the full
byte count. -/
theorem cell_roundtrip (pageSize : Nat) (leaf : Bool) (c : Cell)
    (hps1 : 512 ≤ pageSize) (hps2 : pageSize ≤ 65536)
    (hchild : c.child = none ↔ leaf = true)
    (hp : ∀ p, c.child = some p → p < 2 ^ 32)
    (hkey : c.key < 2 ^ 64)
    (hfit : (encodeCell c).length ≤ pageSize - 8) :
    decodeCell leaf (encodeCell c) = .ok (c, (encodeCell c).length) := by
  have h1 : c.payload.length ≤ (encodeCell c).length := by
    unfold encodeCell
    cases c.child <;> simp [be32] <;> omega
  have hlen : c.payload.length < 2 ^ 64 := by omega
  cases leaf with
  | true => exact decodeCell_encode_leaf c (hchild.mpr rfl) hkey hlen
  | false =>
    cases hoc : c.child with
    | none =>
        have := hchild.mp hoc
        simp at this
    | some p =>
        exact decodeCell_encode_interior c p hoc (hp p hoc) hkey hlen

theorem cell_roundtrip_witness :
    (512 ≤ 512) ∧ (512 ≤ 65536)
    ∧ ((Cell.mk (some 7) 42 [1, 2, 3]).child = none ↔ false = true)
    ∧ (∀ p, (Cell.mk (some 7) 42 [1, 2, 3]).child = some p → p < 2 ^ 32)
    ∧ ((Cell.mk (some 7) 42 [1, 2, 3]).key < 2 ^ 64)
    ∧ ((encodeCell (Cell.mk (some 7) 42 [1, 2, 3])).length ≤ 512 - 8)
    ∧ decodeCell false (encodeCell (Cell.mk (some 7) 42 [1, 2, 3]))
        = .ok (Cell.mk (some 7) 42 [1, 2, 3],
               (encodeCell (Cell.mk (some 7) 42 [1, 2, 3])).length) :=
  ⟨by decide, by decide, by decide,
   by intro p h; simp only [Option.some.injEq] at h; omega,
   by decide, by simp [encodeCell, encodeVarint, encHi, be32],
   cell_roundtrip 512 false (Cell.mk (some 7) 42 [1, 2, 3])
     (by decide) (by decide) (by decide)
     (by intro p h; simp only [Option.some.injEq] at h; omega)
     (by decide) (by simp [encodeCell, encodeVarint, encHi, be32])⟩

/-! ## Page codec -/

/-- Page type flags, first byte of the on-disk image of every BTree page
(`src/btreeInt.h` lines 251-258). -/
def PTF_INTKEY : Nat := 0x01

/-- Page type flag: the page carries only keys and no data
(`src/btreeInt.h:256`). -/
def PTF_ZERODATA : Nat := 0x02

/-- Page type flag: data is stored on leaves (`src/btreeInt.h:257`). -/
def PTF_LEAFDATA : Nat := 0x04

/-- Page type flag: the page has no children (`src/btreeInt.h:258`). -/
def PTF_LEAF : Nat := 0x08

/-- Error raised by the page codec on a structurally invalid page image. -/
inductive PageError where
  | CorruptPage
deriving DecidableEq

/-- Two-byte big-endian read, the `get2byte` macro of
`src/btreeInt.h:400`; out-of-range offsets read as zero. -/
def get2byte (bs : List Nat) (off : Nat) : Nat :=
  bs.getD off 0 * 256 + bs.getD (off + 1) 0

/-- Four-byte big-endian read, the `sqlite3Get4byte` helper named at
`src/btreeInt.h:402`. -/
def get4byte (bs : List Nat) (off : Nat) : Nat :=
  ((bs.getD off 0 * 256 + bs.getD (off + 1) 0) * 256
    + bs.getD (off + 2) 0) * 256 + bs.getD (off + 3) 0

/-- Modelled from the spec: the page header starts after the 100-byte file
header on page 1 and at offset 0 elsewhere (`src/btreeInt.h` lines
106-108). -/
def hdrOffset (pgno : Nat) : Nat :=
  if pgno = 1 then 100 else 0

/-- Modelled from the spec: the recognized page-type flag combinations,
from the PTF bit meanings (`src/btreeInt.h` lines 126-140, 251-258): an
index page is `PTF_ZERODATA`, a table page is `PTF_INTKEY|PTF_LEAFDATA`,
each optionally with `PTF_LEAF`. -/
def recognizedFlags (f : Nat) : Bool :=
  f = PTF_ZERODATA || f = PTF_INTKEY + PTF_LEAFDATA
    || f = PTF_ZERODATA + PTF_LEAF || f = PTF_INTKEY + PTF_LEAFDATA + PTF_LEAF

/-- Leaf bit of a flag byte (`PTF_LEAF`). -/
def isLeafFlag (f : Nat) : Bool :=
  f / 8 % 2 = 1

/-- Page header size: 8 bytes for leaves, 12 for interior pages
(`src/btreeInt.h:113`). -/
def pageHdrSize (f : Nat) : Nat :=
  if isLeafFlag f then 8 else 12

/-- Flag byte of the raw page image (header offset 0). -/
def pageFlags (bs : List Nat) (pgno : Nat) : Nat :=
  bs.getD (hdrOffset pgno) 0

/-- Cell count of the raw page image (header offset 3). -/
def pageNCell (bs : List Nat) (pgno : Nat) : Nat :=
  get2byte bs (hdrOffset pgno + 3)

/-- First byte of the cell content area (header offset 5). -/
def pageCellContent (bs : List Nat) (pgno : Nat) : Nat :=
  get2byte bs (hdrOffset pgno + 5)

/-- First byte past the page header and the cell pointer array. -/
def pageHeaderEnd (bs : List Nat) (pgno : Nat) : Nat :=
  hdrOffset pgno + pageHdrSize (pageFlags bs pgno) + 2 * pageNCell bs pgno

/-- The cell pointer array: `pageNCell` two-byte offsets following the page
header (`src/btreeInt.h` lines 142-147). -/
def pageCellPtrs (bs : List Nat) (pgno : Nat) : List Nat :=
  (List.range (pageNCell bs pgno)).map
    (fun i => get2byte bs (hdrOffset pgno + pageHdrSize (pageFlags bs pgno) + 2 * i))

/-- Modelled from the spec: the decoded view of one page (spec section
4.1 and the header layout comment `src/btreeInt.h` lines 126-147). -/
structure PageView where
  flags : Nat
  nCell : Nat
  firstFreeblock : Nat
  cellContentStart : Nat
  nFrag : Nat
  rightChild : Option Nat
  cellPtrs : List Nat
deriving DecidableEq

/-- Modelled from the spec: `decode(rawBytes, pageNumber) -> PageView` of
the Page Codec (spec section 4.1; the C routine is not in the source
slice).  Fails with `CorruptPage` when the page-type flag byte is not a
recognized combination, when the cell-pointer array extends past the
cell-content boundary, or when some cell pointer lies outside
`[headerEnd, pageSize)`. -/
def decodePage (pageSize : Nat) (bs : List Nat) (pgno : Nat) :
    Except PageError PageView :=
  let hdr := hdrOffset pgno
  let f := pageFlags bs pgno
  if recognizedFlags f then
    let n := pageNCell bs pgno
    let hEnd := pageHeaderEnd bs pgno
    if pageCellContent bs pgno < hEnd then .error .CorruptPage
    else
      let ptrs := pageCellPtrs bs pgno
      if ptrs.any (fun p => p < hEnd || pageSize ≤ p) then .error .CorruptPage
      else .ok { flags := f, nCell := n,
                 firstFreeblock := get2byte bs (hdr + 1),
                 cellContentStart := pageCellContent bs pgno,
                 nFrag := bs.getD (hdr + 7) 0,
                 rightChild := if isLeafFlag f then none
                               else some (get4byte bs (hdr + 8)),
                 cellPtrs := ptrs }
  else .error .CorruptPage

/-- Modelled from the spec: the disjunction of the three corruption
conditions of the Page Codec contract (spec section 4.1). -/
def pageCorruptCond (pageSize : Nat) (bs : List Nat) (pgno : Nat) : Prop :=
  recognizedFlags (pageFlags bs pgno) = false
  ∨ pageCellContent bs pgno < pageHeaderEnd bs pgno
  ∨ ∃ p ∈ pageCellPtrs bs pgno, p < pageHeaderEnd bs pgno ∨ pageSize ≤ p

/-- C3: page decode fails with CorruptPage exactly when the page-type flag
byte is not a recognized combination, the cell-pointer array extends past
the cell-content boundary, or some cell pointer lies outside
[headerEnd, pageSize); otherwise it succeeds with a PageView. -/
theorem page_decode_corrupt_iff (pageSize : Nat) (bs : List Nat) (pgno : Nat)
    (hlen : bs.length = pageSize) :
    (decodePage pageSize bs pgno = .error .CorruptPage
        ↔ pageCorruptCond pageSize bs pgno)
    ∧ (¬ pageCorruptCond pageSize bs pgno
        → ∃ pv, decodePage pageSize bs pgno = .ok pv) := by
  by_cases h1 : recognizedFlags (pageFlags bs pgno) = true
  · by_cases h2 : pageCellContent bs pgno < pageHeaderEnd bs pgno
    · have hd : decodePage pageSize bs pgno = .error .CorruptPage := by
        unfold decodePage
        simp [h1, h2]
      refine ⟨?_, ?_⟩
      · rw [hd]
        unfold pageCorruptCond
        exact ⟨fun _ => Or.inr (Or.inl h2), fun _ => rfl⟩
      · intro hcon
        exact absurd (Or.inr (Or.inl h2)) hcon
    · by_cases h3 : ((pageCellPtrs bs pgno).any
          fun p => p < pageHeaderEnd bs pgno || pageSize ≤ p) = true
      · have hd : decodePage pageSize bs pgno = .error .CorruptPage := by
          unfold decodePage
          simp only [h1, if_true]
          rw [if_neg h2]
          simp only [h3, if_true]
        have hex : ∃ p ∈ pageCellPtrs bs pgno,
            p < pageHeaderEnd bs pgno ∨ pageSize ≤ p := by
          rcases List.any_eq_true.mp h3 with ⟨p, hp, hcond⟩
          exact ⟨p, hp, by simpa using hcond⟩
        refine ⟨?_, ?_⟩
        · rw [hd]
          unfold pageCorruptCond
          exact ⟨fun _ => Or.inr (Or.inr hex), fun _ => rfl⟩
        · intro hcon
          exact absurd (Or.inr (Or.inr hex)) hcon
      · have h3f : ((pageCellPtrs bs pgno).any
            fun p => p < pageHeaderEnd bs pgno || pageSize ≤ p) = false := by
          simpa using h3
        have hd : decodePage pageSize bs pgno
            = .ok { flags := pageFlags bs pgno, nCell := pageNCell bs pgno,
                    firstFreeblock := get2byte bs (hdrOffset pgno + 1),
                    cellContentStart := pageCellContent bs pgno,
                    nFrag := bs.getD (hdrOffset pgno + 7) 0,
                    rightChild := if isLeafFlag (pageFlags bs pgno) then none
                                  else some (get4byte bs (hdrOffset pgno + 8)),
                    cellPtrs := pageCellPtrs bs pgno } := by
          unfold decodePage
          simp only [h1, if_true]
          rw [if_neg h2]
          simp only [h3f, Bool.false_eq_true, if_false]
        have hnex : ¬ ∃ p ∈ pageCellPtrs bs pgno,
            p < pageHeaderEnd bs pgno ∨ pageSize ≤ p := by
          intro hcon
          rcases hcon with ⟨p, hp, hc⟩
          have := List.any_eq_false.mp h3f p hp
          simp at this
          rcases hc with hc | hc
          · exact absurd hc (by omega)
          · exact absurd hc (by omega)
        refine ⟨?_, fun _ => ⟨_, hd⟩⟩
        rw [hd]
        constructor
        · intro hcon
          exact absurd hcon (by simp)
        · intro hcon
          unfold pageCorruptCond at hcon
          rcases hcon with hc | hc | hc
          · rw [h1] at hc
            exact absurd hc (by simp)
          · exact absurd hc h2
          · exact absurd hc hnex
  · have h1f : recognizedFlags (pageFlags bs pgno) = false := by
      simpa using h1
    have hd : decodePage pageSize bs pgno = .error .CorruptPage := by
      unfold decodePage
      simp [h1f]
    refine ⟨?_, ?_⟩
    · rw [hd]
      unfold pageCorruptCond
      exact ⟨fun _ => Or.inl h1f, fun _ => rfl⟩
    · intro hcon
      exact absurd (Or.inl h1f) hcon

theorem page_decode_witness :
    (([13, 0, 0, 0, 1, 1, 244, 0, 1, 244] ++ List.replicate 502 0).length = 512)
    ∧ ((decodePage 512 ([13, 0, 0, 0, 1, 1, 244, 0, 1, 244]
          ++ List.replicate 502 0) 2 = .error .CorruptPage
        ↔ pageCorruptCond 512 ([13, 0, 0, 0, 1, 1, 244, 0, 1, 244]
          ++ List.replicate 502 0) 2)
      ∧ (¬ pageCorruptCond 512 ([13, 0, 0, 0, 1, 1, 244, 0, 1, 244]
            ++ List.replicate 502 0) 2
          → ∃ pv, decodePage 512 ([13, 0, 0, 0, 1, 1, 244, 0, 1, 244]
              ++ List.replicate 502 0) 2 = .ok pv)) :=
  ⟨by decide,
   page_decode_corrupt_iff 512
     ([13, 0, 0, 0, 1, 1, 244, 0, 1, 244] ++ List.replicate 502 0) 2
     (by decide)⟩

/-! ## Overflow chains -/

/-- Modelled from the spec: split a byte sequence into consecutive chunks
of `sz` bytes, the last chunk possibly shorter.  This is how the Cell
Codec fills an overflow chain: each overflow page holds `pageSize - 4`
payload bytes after its 4-byte next-page pointer (`src/btreeInt.h` lines
198-204). -/
def chunks (sz : Nat) (l : List Nat) : List (List Nat) :=
  if h : l = [] ∨ sz = 0 then [] else l.take sz :: chunks sz (l.drop sz)
termination_by l.length
decreasing_by
  simp only [List.length_drop]
  have h1 : l ≠ [] := fun hc => h (Or.inl hc)
  have h2 : sz ≠ 0 := fun hc => h (Or.inr hc)
  have := List.length_pos.mpr h1
  omega

/-- Modelled from the spec: the overflow chain built for the payload bytes
that exceed a cell's local size; each entry is the data content of one
overflow page. -/
def overflowChain (pageSize : Nat) (spill : List Nat) : List (List Nat) :=
  chunks (pageSize - 4) spill

theorem chunks_nil {sz : Nat} : chunks sz [] = [] := by
  rw [chunks]
  simp

theorem chunks_cons {sz : Nat} {l : List Nat} (h1 : l ≠ []) (h2 : sz ≠ 0) :
    chunks sz l = l.take sz :: chunks sz (l.drop sz) := by
  rw [chunks]
  simp [h1, h2]

theorem chunks_length {sz : Nat} (hsz : sz ≠ 0) (l : List Nat) :
    (chunks sz l).length = (l.length + sz - 1) / sz := by
  generalize hn : l.length = n
  induction n using Nat.strong_induction_on generalizing l with
  | _ n ih =>
    by_cases h : l = []
    · subst h
      simp only [List.length_nil] at hn
      subst hn
      rw [chunks_nil]
      simp only [List.length_nil]
      have : (0 + sz - 1) / sz = 0 := Nat.div_eq_of_lt (by omega)
      omega
    · rw [chunks_cons h hsz]
      simp only [List.length_cons]
      have hpos : 1 ≤ l.length := List.length_pos.mpr h
      by_cases h2 : l.length ≤ sz
      · have hd : l.drop sz = [] := by
          apply List.eq_nil_of_length_eq_zero
          simp only [List.length_drop]
          omega
        rw [hd, chunks_nil]
        have h1 : (n + sz - 1) / sz = 1 := by
          apply Nat.div_eq_of_lt_le <;> omega
        simp only [List.length_nil]
        omega
      · have hdl : (l.drop sz).length = l.length - sz := by
          simp [List.length_drop]
        rw [ih (l.drop sz).length (by omega) (l.drop sz) rfl]
        rw [hdl]
        have hms : sz ≤ n - 1 := by omega
        have hdiv : (n - 1) / sz = (n - 1 - sz) / sz + 1 :=
          Nat.div_eq_sub_div (by omega) hms
        have hrw : l.length - sz + sz - 1 = (n - 1 - sz) + sz := by omega
        rw [hrw, Nat.add_div_right _ (by omega : 0 < sz)]
        have hrw2 : n + sz - 1 = (n - 1) + sz := by omega
        rw [hrw2, Nat.add_div_right _ (by omega : 0 < sz)]
        omega

theorem chunks_full {sz : Nat} (hsz : sz ≠ 0) (l : List Nat) :
    ∀ c ∈ (chunks sz l).dropLast, c.length = sz := by
  generalize hn : l.length = n
  induction n using Nat.strong_induction_on generalizing l with
  | _ n ih =>
    by_cases h : l = []
    · subst h
      simp [chunks_nil]
    · rw [chunks_cons h hsz]
      by_cases h2 : l.drop sz = []
      · rw [h2, chunks_nil]
        simp
      · have hne : chunks sz (l.drop sz) ≠ [] := by
          rw [chunks_cons h2 hsz]
          simp
        rw [List.dropLast_cons_of_ne_nil hne]
        intro c hc
        rcases List.mem_cons.mp hc with hc | hc
        · subst hc
          have hgt : sz < l.length := by
            by_contra hcon
            apply h2
            apply List.eq_nil_of_length_eq_zero
            simp only [List.length_drop]
            omega
          simp only [List.length_take]
          omega
        · have hpos : 1 ≤ l.length := List.length_pos.mpr h
          have hlt : (l.drop sz).length < n := by
            simp only [List.length_drop]
            omega
          exact ih (l.drop sz).length hlt (l.drop sz) rfl c hc

theorem chunks_last {sz : Nat} (hsz : sz ≠ 0) (l : List Nat) :
    ∀ c, (chunks sz l).getLast? = some c → 1 ≤ c.length ∧ c.length ≤ sz := by
  generalize hn : l.length = n
  induction n using Nat.strong_induction_on generalizing l with
  | _ n ih =>
    intro c hc
    by_cases h : l = []
    · subst h
      rw [chunks_nil] at hc
      exact absurd hc (by simp)
    · rw [chunks_cons h hsz] at hc
      have hpos : 1 ≤ l.length := List.length_pos.mpr h
      by_cases h2 : l.drop sz = []
      · rw [h2, chunks_nil, List.getLast?_singleton] at hc
        have hc2 : c = l.take sz := by
          injection hc with hc
          exact hc.symm
        subst hc2
        have hle : l.length ≤ sz := by
          have := congrArg List.length h2
          simp only [List.length_drop, List.length_nil] at this
          omega
        simp only [List.length_take]
        omega
      · rcases hck : chunks sz (l.drop sz) with _ | ⟨b, t⟩
        · exact absurd hck (by rw [chunks_cons h2 hsz]; simp)
        · rw [hck, List.getLast?_cons_cons] at hc
          have hlt : (l.drop sz).length < n := by
            simp only [List.length_drop]
            omega
          apply ih (l.drop sz).length hlt (l.drop sz) rfl c
          rw [hck]
          exact hc

/-- C4: for a cell whose payload exceeds its local size, the overflow
chain holding the remaining payload.drop localSize bytes has exactly
ceil((payload - localSize) / (pageSize - 4)) pages; every page but the
last carries exactly pageSize - 4 payload bytes, and the last carries
between 1 and pageSize - 4 bytes (`src/btreeInt.h` lines 198-204). -/
theorem overflow_chain_spec (pageSize localSize : Nat) (payload : List Nat)
    (hps : 512 ≤ pageSize) (hlocal : localSize < payload.length) :
    (overflowChain pageSize (payload.drop localSize)).length
        = (payload.length - localSize + (pageSize - 4) - 1) / (pageSize - 4)
    ∧ (∀ c ∈ (overflowChain pageSize (payload.drop localSize)).dropLast,
        c.length = pageSize - 4)
    ∧ (∀ c, (overflowChain pageSize (payload.drop localSize)).getLast? = some c →
        1 ≤ c.length ∧ c.length ≤ pageSize - 4) := by
  have hsz : pageSize - 4 ≠ 0 := by omega
  refine ⟨?_, ?_, ?_⟩
  · unfold overflowChain
    rw [chunks_length hsz]
    simp only [List.length_drop]
  · exact chunks_full hsz _
  · exact chunks_last hsz _

theorem overflow_chain_witness :
    (512 ≤ 4096) ∧ (1000 < (List.replicate 100000 0).length)
    ∧ ((overflowChain 4096 ((List.replicate 100000 (0 : Nat)).drop 1000)).length
          = ((List.replicate 100000 (0 : Nat)).length - 1000 + (4096 - 4) - 1)
            / (4096 - 4)
        ∧ (∀ c ∈ (overflowChain 4096
              ((List.replicate 100000 (0 : Nat)).drop 1000)).dropLast,
            c.length = 4096 - 4)
        ∧ (∀ c, (overflowChain 4096
              ((List.replicate 100000 (0 : Nat)).drop 1000)).getLast? = some c →
            1 ≤ c.length ∧ c.length ≤ 4096 - 4)) :=
  ⟨by decide, by rw [List.length_replicate]; omega,
   overflow_chain_spec 4096 1000 (List.replicate 100000 0) (by decide)
     (by rw [List.length_replicate]; omega)⟩

/-! ## Balancer redistribution -/

/-- Modelled from the spec: the balancer's redistribution loop (spec
section 4.6 step 4; `balance_nonroot` is named in `src/btreeInt.h:356` but
its body is not in the source slice).  Cells, given by their sizes, are
packed in order onto output pages of capacity `u`: the current page `cur`
(with running size `s`) takes the next cell when it fits, otherwise the
page is closed and a new page starts, so the output uses as few in-order
pages as will hold the content without exceeding the maximum fill. -/
def packAux (u : Nat) : List Nat → List Nat → Nat → List (List Nat)
  | [], cur, _ => [cur]
  | c :: rest, cur, s =>
    if s + c ≤ u then packAux u rest (cur ++ [c]) (s + c)
    else cur :: packAux u rest [c] c

/-- Modelled from the spec: redistribute a nonempty cell sequence across
output pages of capacity `u`; an empty sequence yields no pages. -/
def packPages (u : Nat) : List Nat → List (List Nat)
  | [] => []
  | c :: rest => packAux u rest [c] c

theorem packAux_ne_nil {u : Nat} :
    ∀ (cells cur : List Nat) (s : Nat), packAux u cells cur s ≠ [] := by
  intro cells
  induction cells with
  | nil => intro cur s; simp [packAux]
  | cons c rest ih =>
    intro cur s
    unfold packAux
    by_cases h : s + c ≤ u
    · simp only [h, if_true]
      exact ih _ _
    · simp [h]

theorem packAux_flatten {u : Nat} :
    ∀ (cells cur : List Nat) (s : Nat),
      (packAux u cells cur s).flatten = cur ++ cells := by
  intro cells
  induction cells with
  | nil => intro cur s; simp [packAux]
  | cons c rest ih =>
    intro cur s
    unfold packAux
    by_cases h : s + c ≤ u
    · simp only [h, if_true]
      rw [ih]
      simp
    · simp only [h, if_false]
      simp only [List.flatten_cons]
      rw [ih]
      simp

theorem packAux_dropLast {u m : Nat} (hmu : m ≤ u) :
    ∀ (cells cur : List Nat) (s : Nat), s = cur.sum →
      (∀ c ∈ cells, c ≤ m) →
      ∀ p ∈ (packAux u cells cur s).dropLast, u - m + 1 ≤ p.sum := by
  intro cells
  induction cells with
  | nil => intro cur s _ _; simp [packAux]
  | cons c rest ih =>
    intro cur s hs hm
    unfold packAux
    by_cases h : s + c ≤ u
    · simp only [h, if_true]
      exact ih (cur ++ [c]) (s + c) (by simp [hs]) fun x hx => hm x (by simp [hx])
    · simp only [h, if_false]
      have hne := packAux_ne_nil (u := u) rest [c] c
      rw [List.dropLast_cons_of_ne_nil hne]
      intro p hp
      rcases List.mem_cons.mp hp with hp | hp
      · subst hp
        have hc : c ≤ m := hm c (by simp)
        omega
      · exact ih [c] c (by simp) (fun x hx => hm x (by simp [hx])) p hp

theorem packAux_pages_ne_nil {u : Nat} :
    ∀ (cells cur : List Nat) (s : Nat), cur ≠ [] →
      ∀ p ∈ packAux u cells cur s, p ≠ [] := by
  intro cells
  induction cells with
  | nil => intro cur s hcur; simp [packAux]; intro h; exact absurd h hcur
  | cons c rest ih =>
    intro cur s hcur
    unfold packAux
    by_cases h : s + c ≤ u
    · simp only [h, if_true]
      exact ih _ _ (by simp)
    · simp only [h, if_false]
      intro p hp
      rcases List.mem_cons.mp hp with hp | hp
      · subst hp; exact hcur
      · exact ih [c] c (by simp) p hp

theorem packAux_sum_lower {u m : Nat} (hmu : m ≤ u) :
    ∀ (cells cur : List Nat) (s : Nat), s = cur.sum →
      (∀ c ∈ cells, c ≤ m) →
      2 ≤ (packAux u cells cur s).length →
      ((packAux u cells cur s).length - 2) * (u - m + 1) + (u + 1)
        ≤ cur.sum + cells.sum := by
  intro cells
  induction cells with
  | nil =>
    intro cur s hs hm hk
    simp [packAux] at hk
  | cons c rest ih =>
    intro cur s hs hm hk
    unfold packAux at hk ⊢
    by_cases h : s + c ≤ u
    · simp only [h, if_true] at hk ⊢
      have hrec := ih (cur ++ [c]) (s + c) (by simp [hs])
        (fun x hx => hm x (by simp [hx])) hk
      simp only [List.sum_append, List.sum_cons, List.sum_nil] at hrec ⊢
      omega
    · simp only [h, if_false] at hk ⊢
      simp only [List.length_cons] at hk ⊢
      have hc : c ≤ m := hm c (by simp)
      by_cases h2 : 2 ≤ (packAux u rest [c] c).length
      · have hrec := ih [c] c (by simp)
          (fun x hx => hm x (by simp [hx])) h2
        simp only [List.sum_cons, List.sum_nil, Nat.add_zero] at hrec
        have hexp : ((packAux u rest [c] c).length + 1 - 2) * (u - m + 1)
            = ((packAux u rest [c] c).length - 2) * (u - m + 1)
              + (u - m + 1) := by
          have he : (packAux u rest [c] c).length + 1 - 2
              = ((packAux u rest [c] c).length - 2) + 1 := by omega
          rw [he, Nat.add_mul, one_mul]
        rw [hexp]
        simp only [List.sum_cons]
        omega
      · have hne := packAux_ne_nil (u := u) rest [c] c
        have hpos : 1 ≤ (packAux u rest [c] c).length := List.length_pos.mpr hne
        have hP1 : (packAux u rest [c] c).length = 1 := by omega
        rw [hP1]
        simp only [List.sum_cons]
        omega

/-- C7: for a balancer redistribution of cells each of size between 1 and
the maximum local cell size m, with at least 4 cells fitting on a page
(4m <= u, the default max embedded payload fraction of 64/255 of usable
space, `src/btreeInt.h` lines 90-94) and with the content drawn from a
working set of nOld pages (1-3) plus one extra cell, every output page
other than the rightmost is filled to at least the 32 percent minimum
fill fraction of the usable space, and the number of output pages never
exceeds the number of working-set pages plus one. -/
theorem balance_output_spec (u m nOld : Nat) (cells : List Nat)
    (hcell : ∀ c ∈ cells, 1 ≤ c ∧ c ≤ m)
    (hm4 : 4 * m ≤ u)
    (htot : cells.sum ≤ nOld * u + m)
    (hold1 : 1 ≤ nOld) (hold3 : nOld ≤ 3) :
    (∀ p ∈ (packPages u cells).dropLast, 32 * u ≤ 100 * p.sum)
    ∧ (packPages u cells).length ≤ nOld + 1 := by
  cases cells with
  | nil =>
    constructor
    · intro p hp
      simp [packPages] at hp
    · simp [packPages]
  | cons c rest =>
    have hmu : m ≤ u := by omega
    have hm1 : 1 ≤ m := by
      have := hcell c (by simp)
      omega
    have hdropBound : ∀ p ∈ (packPages u (c :: rest)).dropLast,
        u - m + 1 ≤ p.sum := by
      unfold packPages
      exact packAux_dropLast hmu rest [c] c (by simp)
        (fun x hx => (hcell x (by simp [hx])).2)
    constructor
    · intro p hp
      have := hdropBound p hp
      omega
    · by_contra hk
      push_neg at hk
      have hk2 : 2 ≤ (packPages u (c :: rest)).length := by omega
      have hlow := packAux_sum_lower hmu rest [c] c (by simp)
        (fun x hx => (hcell x (by simp [hx])).2) (by exact hk2)
      simp only [List.sum_cons, List.sum_nil, Nat.add_zero] at hlow
      have hkk : nOld ≤ (packPages u (c :: rest)).length - 2 := by omega
      have hmul : nOld * (u - m + 1)
          ≤ ((packPages u (c :: rest)).length - 2) * (u - m + 1) :=
        Nat.mul_le_mul_right _ hkk
      have hsum : (c :: rest).sum = c + rest.sum := by simp
      have hfin : nOld * (u - m + 1) + (u + 1) ≤ nOld * u + m := by
        calc nOld * (u - m + 1) + (u + 1)
            ≤ ((packPages u (c :: rest)).length - 2) * (u - m + 1) + (u + 1) := by
              omega
          _ ≤ c + rest.sum := hlow
          _ = (c :: rest).sum := hsum.symm
          _ ≤ nOld * u + m := htot
      interval_cases nOld <;> omega

theorem balance_output_spec_witness :
    (∀ c ∈ ([8, 8, 5, 4, 1] : List Nat), 1 ≤ c ∧ c ≤ 8)
    ∧ 4 * 8 ≤ 32
    ∧ ([8, 8, 5, 4, 1] : List Nat).sum ≤ 1 * 32 + 8
    ∧ 1 ≤ 1 ∧ 1 ≤ 3
    ∧ ((∀ p ∈ (packPages 32 [8, 8, 5, 4, 1]).dropLast, 32 * 32 ≤ 100 * p.sum)
        ∧ (packPages 32 [8, 8, 5, 4, 1]).length ≤ 1 + 1) :=
  ⟨by decide, by decide, by decide, by decide, by decide,
   balance_output_spec 32 8 1 [8, 8, 5, 4, 1]
     (by decide) (by decide) (by decide) (by decide) (by decide)⟩

/-! ## Cursor mutations and transactions -/

/-- Transaction level: no transaction (`src/btreeInt.h:270`). -/
def TRANS_NONE : Nat := 0

/-- Transaction level: read transaction (`src/btreeInt.h:271`). -/
def TRANS_READ : Nat := 1

/-- Transaction level: write transaction (`src/btreeInt.h:272`). -/
def TRANS_WRITE : Nat := 2

/-- Error returned by mutating operations attempted without a write
transaction. -/
inductive BtreeError where
  | ReadOnly
deriving DecidableEq

/-- Modelled from the spec: the state of one Btree handle visible to its
cursors: the transaction level of the handle (`Btree.inTrans` per
`src/btreeInt.h` lines 260-272) and the ordered key/payload table it
roots. -/
structure Btree where
  inTrans : Nat
  table : List (Nat × List Nat)
deriving DecidableEq

/-- Modelled from the spec: ordered insertion of a key/payload record,
replacing an existing record with the same key. -/
def insertSorted (k : Nat) (v : List Nat) :
    List (Nat × List Nat) → List (Nat × List Nat)
  | [] => [(k, v)]
  | (k2, v2) :: rest =>
    if k < k2 then (k, v) :: (k2, v2) :: rest
    else if k = k2 then (k, v) :: rest
    else (k2, v2) :: insertSorted k v rest

/-- Modelled from the spec: `insert(key, payload)` of the Cursor component
(spec section 4.5; the C routine is not in the source slice).  A mutating
operation on a Btree that does not hold a write transaction fails with
`ReadOnly` and produces no new tree state. -/
def btreeInsert (b : Btree) (k : Nat) (v : List Nat) : Except BtreeError Btree :=
  if b.inTrans = TRANS_WRITE then
    .ok { b with table := insertSorted k v b.table }
  else .error .ReadOnly

/-- Modelled from the spec: `delete()` of the Cursor component (spec
section 4.5). -/
def btreeDelete (b : Btree) (k : Nat) : Except BtreeError Btree :=
  if b.inTrans = TRANS_WRITE then
    .ok { b with table := b.table.filter (fun e => !(e.1 == k)) }
  else .error .ReadOnly

/-- C8: every mutating cursor operation (insert, delete) fails with
ReadOnly, leaving the tree unchanged (no successor state is produced),
whenever the underlying Btree does not hold a write transaction; and
success of a mutating operation implies the write transaction was held. -/
theorem mutating_requires_write (b : Btree) (k : Nat) (v : List Nat) :
    (b.inTrans ≠ TRANS_WRITE →
      btreeInsert b k v = .error .ReadOnly ∧ btreeDelete b k = .error .ReadOnly)
    ∧ (∀ b2, btreeInsert b k v = .ok b2 → b.inTrans = TRANS_WRITE)
    ∧ (∀ b2, btreeDelete b k = .ok b2 → b.inTrans = TRANS_WRITE) := by
  refine ⟨?_, ?_, ?_⟩
  · intro h
    unfold btreeInsert btreeDelete
    simp [h]
  · intro b2 hb2
    unfold btreeInsert at hb2
    by_cases h : b.inTrans = TRANS_WRITE
    · exact h
    · simp [h] at hb2
  · intro b2 hb2
    unfold btreeDelete at hb2
    by_cases h : b.inTrans = TRANS_WRITE
    · exact h
    · simp [h] at hb2

theorem mutating_requires_write_witness :
    ((Btree.mk TRANS_READ [(5, [1])]).inTrans ≠ TRANS_WRITE)
    ∧ (btreeInsert (Btree.mk TRANS_READ [(5, [1])]) 7 [2] = .error .ReadOnly
        ∧ btreeDelete (Btree.mk TRANS_READ [(5, [1])]) 5 = .error .ReadOnly) :=
  ⟨by decide,
   (mutating_requires_write (Btree.mk TRANS_READ [(5, [1])]) 7 [2]).1 (by decide)⟩

/-! ## Hash table insert (`src/hash.c`) -/

/-- The hash table of `src/hash.h`: element list plus the `count` and
`htsize` bookkeeping fields of the C `Hash` struct.  Data values are
naturals with `0` playing the role of the C `NULL` data pointer (the code
tests `elem->data` for truth); the bucket array is abstracted away, so
`elems` stands for the element list in insertion order. -/
structure Hash where
  count : Nat
  htsize : Nat
  elems : List (String × Nat)
deriving DecidableEq

/-- Modelled from the spec: `findElementWithHash` (called by
`sqlite3HashInsert` at `src/hash.c:40`, body not in the source slice):
the element whose key matches, if any. -/
def findElementWithHash (pH : Hash) (pKey : String) : Option (String × Nat) :=
  pH.elems.find? (fun e => e.1 == pKey)

/-- The fresh-element path of `sqlite3HashInsert` (`src/hash.c` lines
51-64): inserting under a key with no current element.  NULL data is a
no-op; a failed allocation (`mallocOk = false`) returns the data with the
table untouched; otherwise the element is appended, `count` incremented,
and the table occasionally rehashed (`htsize` grown) exactly under the
`count>=10 && count > 2*htsize` test of `src/hash.c:57`. -/
def hashInsertNew (mallocOk : Bool) (pH : Hash) (pKey : String) (data : Nat) :
    Nat × Hash :=
  if data = 0 then (0, pH)
  else if mallocOk = false then (data, pH)
  else
    let cnt := pH.count + 1
    let hts := if 10 ≤ cnt ∧ 2 * pH.htsize < cnt then 2 * cnt else pH.htsize
    (0, { count := cnt, htsize := hts, elems := pH.elems ++ [(pKey, data)] })

/-- `sqlite3HashInsert` (`src/hash.c` lines 33-65).  `mallocOk` models the
success of the `sqlite3Malloc` call for the new element.  Returns the C
function's return value together with the resulting table: an existing
element's data is replaced (and the old data returned), an existing
element is removed when `data` is `0`, and otherwise the fresh-element
path runs. -/
def sqlite3HashInsert (mallocOk : Bool) (pH : Hash) (pKey : String)
    (data : Nat) : Nat × Hash :=
  match findElementWithHash pH pKey with
  | some e =>
    if e.2 ≠ 0 then
      if data = 0 then
        (e.2, { pH with count := pH.count - 1,
                        elems := pH.elems.filter (fun x => !(x.1 == pKey)) })
      else
        (e.2, { pH with
                elems := pH.elems.map
                           (fun x => if x.1 == pKey then (pKey, data) else x) })
    else hashInsertNew mallocOk pH pKey data
  | none => hashInsertNew mallocOk pH pKey data

theorem find?_filter_ne (l : List (String × Nat)) (pKey k : String)
    (hk : k ≠ pKey) :
    (l.filter (fun x => !(x.1 == pKey))).find? (fun e => e.1 == k)
      = l.find? (fun e => e.1 == k) := by
  induction l with
  | nil => rfl
  | cons x rest ih =>
    by_cases hx : x.1 = pKey
    · have h1 : (x.1 == pKey) = true := by simp [hx]
      have h2 : (x.1 == k) = false := by
        simp only [hx, beq_eq_false_iff_ne, ne_eq]
        exact fun hc => hk hc.symm
      simp only [List.filter_cons, h1, Bool.not_true, if_false]
      rw [List.find?_cons_of_neg _ (by simp [h2])]
      exact ih
    · have h1 : (x.1 == pKey) = false := by simp [hx]
      simp only [List.filter_cons, h1, Bool.not_false, if_true]
      by_cases hxk : x.1 = k
      · rw [List.find?_cons_of_pos _ (by simp [hxk]),
           List.find?_cons_of_pos _ (by simp [hxk])]
      · rw [List.find?_cons_of_neg _ (by simp [hxk]),
           List.find?_cons_of_neg _ (by simp [hxk])]
        exact ih

theorem find?_filter_self (l : List (String × Nat)) (pKey : String) :
    (l.filter (fun x => !(x.1 == pKey))).find? (fun e => e.1 == pKey)
      = none := by
  rw [List.find?_eq_none]
  intro x hx
  have := List.of_mem_filter hx
  simp at this
  simp [this]

theorem find?_map_self (l : List (String × Nat)) (pKey : String) (data : Nat)
    (k0 : String) (d0 : Nat)
    (hf : l.find? (fun e => e.1 == pKey) = some (k0, d0)) :
    (l.map (fun x => if x.1 == pKey then (pKey, data) else x)).find?
        (fun e => e.1 == pKey) = some (pKey, data) := by
  induction l with
  | nil => simp at hf
  | cons x rest ih =>
    by_cases hx : x.1 = pKey
    · simp only [List.map_cons]
      rw [if_pos (by simp [hx])]
      rw [List.find?_cons_of_pos _ (by simp)]
    · rw [List.find?_cons_of_neg _ (by simp [hx])] at hf
      simp only [List.map_cons]
      rw [if_neg (by simp [hx])]
      rw [List.find?_cons_of_neg _ (by simp [hx])]
      exact ih hf

theorem find?_map_ne (l : List (String × Nat)) (pKey k : String) (data : Nat)
    (hk : k ≠ pKey) :
    (l.map (fun x => if x.1 == pKey then (pKey, data) else x)).find?
        (fun e => e.1 == k)
      = l.find? (fun e => e.1 == k) := by
  induction l with
  | nil => rfl
  | cons x rest ih =>
    by_cases hx : x.1 = pKey
    · simp only [List.map_cons]
      rw [if_pos (by simp [hx])]
      rw [List.find?_cons_of_neg _
        (by simp only [beq_eq_false_iff_ne, ne_eq, beq_iff_eq]
            exact fun hc => hk hc.symm)]
      rw [List.find?_cons_of_neg _
        (by simp only [beq_iff_eq, hx]
            exact fun hc => hk hc.symm)]
      exact ih
    · simp only [List.map_cons]
      rw [if_neg (by simp [hx])]
      by_cases hxk : x.1 = k
      · rw [List.find?_cons_of_pos _ (by simp [hxk]),
           List.find?_cons_of_pos _ (by simp [hxk])]
      · rw [List.find?_cons_of_neg _ (by simp [hxk]),
           List.find?_cons_of_neg _ (by simp [hxk])]
        exact ih

/-- C10: for a hash table and non-null key, sqlite3HashInsert replaces and
returns the old data when an element with that key exists (removing the
element instead when data is NULL, modelled as 0); when no such element
exists, data is non-NULL, and allocation of the new element fails, it
returns data and leaves the hash table completely unchanged. -/
theorem sqlite3HashInsert_spec (mallocOk : Bool) (pH : Hash) (pKey : String)
    (data : Nat) :
    (∀ k0 d0, findElementWithHash pH pKey = some (k0, d0) → d0 ≠ 0 →
      data ≠ 0 →
      (sqlite3HashInsert mallocOk pH pKey data).1 = d0
      ∧ findElementWithHash (sqlite3HashInsert mallocOk pH pKey data).2 pKey
          = some (pKey, data)
      ∧ (∀ k, k ≠ pKey →
          (sqlite3HashInsert mallocOk pH pKey data).2.elems.find?
              (fun e => e.1 == k)
            = pH.elems.find? (fun e => e.1 == k))
      ∧ (sqlite3HashInsert mallocOk pH pKey data).2.count = pH.count)
    ∧ (∀ k0 d0, findElementWithHash pH pKey = some (k0, d0) → d0 ≠ 0 →
      data = 0 →
      (sqlite3HashInsert mallocOk pH pKey data).1 = d0
      ∧ findElementWithHash (sqlite3HashInsert mallocOk pH pKey data).2 pKey
          = none
      ∧ (∀ k, k ≠ pKey →
          (sqlite3HashInsert mallocOk pH pKey data).2.elems.find?
              (fun e => e.1 == k)
            = pH.elems.find? (fun e => e.1 == k))
      ∧ (sqlite3HashInsert mallocOk pH pKey data).2.count = pH.count - 1)
    ∧ (findElementWithHash pH pKey = none → data ≠ 0 → mallocOk = false →
      sqlite3HashInsert mallocOk pH pKey data = (data, pH)) := by
  refine ⟨?_, ?_, ?_⟩
  · intro k0 d0 hf hd0 hdata
    unfold sqlite3HashInsert
    rw [hf]
    dsimp only
    rw [if_pos hd0, if_neg hdata]
    refine ⟨rfl, ?_, ?_, rfl⟩
    · unfold findElementWithHash at hf ⊢
      exact find?_map_self pH.elems pKey data k0 d0 hf
    · intro k hk
      exact find?_map_ne pH.elems pKey k data hk
  · intro k0 d0 hf hd0 hdata
    unfold sqlite3HashInsert
    rw [hf]
    dsimp only
    rw [if_pos hd0, if_pos hdata]
    refine ⟨rfl, ?_, ?_, rfl⟩
    · unfold findElementWithHash
      exact find?_filter_self pH.elems pKey
    · intro k hk
      exact find?_filter_ne pH.elems pKey k hk
  · intro hf hdata hmalloc
    unfold sqlite3HashInsert
    rw [hf]
    unfold hashInsertNew
    rw [if_neg hdata, if_pos hmalloc]

theorem sqlite3HashInsert_spec_witness :
    (findElementWithHash (Hash.mk 1 4 [("a", 5)]) "a" = some ("a", 5))
    ∧ ((5 : Nat) ≠ 0) ∧ ((7 : Nat) ≠ 0)
    ∧ ((sqlite3HashInsert true (Hash.mk 1 4 [("a", 5)]) "a" 7).1 = 5
      ∧ findElementWithHash
          (sqlite3HashInsert true (Hash.mk 1 4 [("a", 5)]) "a" 7).2 "a"
          = some ("a", 7)
      ∧ (∀ k, k ≠ "a" →
          (sqlite3HashInsert true (Hash.mk 1 4 [("a", 5)]) "a" 7).2.elems.find?
              (fun e => e.1 == k)
            = (Hash.mk 1 4 [("a", 5)]).elems.find? (fun e => e.1 == k))
      ∧ (sqlite3HashInsert true (Hash.mk 1 4 [("a", 5)]) "a" 7).2.count
          = (Hash.mk 1 4 [("a", 5)]).count) :=
  ⟨by decide, by decide, by decide,
   (sqlite3HashInsert_spec true (Hash.mk 1 4 [("a", 5)]) "a" 7).1 "a" 5
     (by decide) (by decide) (by decide)⟩

/-! ## Shared transaction state (`btreeIntegrity`, `src/btreeInt.h:350`) -/

/-- Modelled from the spec: the shared per-file transaction state
(`BtShared.inTransaction`, `BtShared.nTransaction`) together with the
`inTrans` level of every connection handle attached to it
(spec sections 3 and 5; the C struct bodies are not in the source
slice).  `conns` lists each handle's transaction level. -/
structure TxState where
  conns : List Nat
  inTransaction : Nat
  nTransaction : Nat
deriving DecidableEq

/-- Modelled from the spec: one transaction-state transition of the shared
state: a handle begins a read or write transaction (a writer is admitted
only while no write transaction is open), or a handle ends (commits or
rolls back) its transaction, the shared level dropping to TRANS_READ when
the writer leaves and to TRANS_NONE when the last transaction closes
(spec section 5). -/
inductive TxStep : TxState → TxState → Prop where
  | beginTrans (pre post : List Nat) (old : Nat) (wr : Bool) (s : TxState)
      (hconns : s.conns = pre ++ old :: post)
      (hbusy : wr = true → s.inTransaction ≤ 1) :
      TxStep s
        { conns := pre ++ (max old (if wr then 2 else 1)) :: post,
          inTransaction := max s.inTransaction (max old (if wr then 2 else 1)),
          nTransaction := if old = 0 then s.nTransaction + 1
                          else s.nTransaction }
  | endTrans (pre post : List Nat) (old : Nat) (s : TxState)
      (hconns : s.conns = pre ++ old :: post)
      (hold : 0 < old) :
      TxStep s
        { conns := pre ++ 0 :: post,
          inTransaction := if s.nTransaction - 1 = 0 then TRANS_NONE
                           else if old = 2 then TRANS_READ
                           else s.inTransaction,
          nTransaction := s.nTransaction - 1 }

/-- Modelled from the spec: states reachable from a fresh shared state
with any number of attached connections, none in a transaction. -/
inductive TxReachable : TxState → Prop where
  | init (n : Nat) : TxReachable ⟨List.replicate n 0, 0, 0⟩
  | step {s t : TxState} : TxReachable s → TxStep s t → TxReachable t

/-- The conjunction asserted by the `btreeIntegrity` macro
(`src/btreeInt.h` lines 350-352) over every handle attached to the shared
state: the shared level is TRANS_NONE only when no transactions are open,
and the shared level is at least every handle's own level. -/
def btreeIntegrity (s : TxState) : Prop :=
  (s.inTransaction ≠ TRANS_NONE ∨ s.nTransaction = 0)
  ∧ ∀ l ∈ s.conns, l ≤ s.inTransaction

/-- The auxiliary inductive invariant carrying `btreeIntegrity` through
every transition. -/
def TxInv (s : TxState) : Prop :=
  s.nTransaction = s.conns.countP (fun l => decide (0 < l))
  ∧ (∀ l ∈ s.conns, l ≤ s.inTransaction)
  ∧ (s.inTransaction ≠ TRANS_NONE ∨ s.nTransaction = 0)
  ∧ s.inTransaction ≤ 2
  ∧ (∀ l ∈ s.conns, l ≤ 2)
  ∧ s.conns.countP (fun l => l == 2) ≤ 1

theorem TxInv_init (n : Nat) : TxInv ⟨List.replicate n 0, 0, 0⟩ := by
  refine ⟨?_, ?_, Or.inr rfl, by simp, ?_, ?_⟩
  · symm
    rw [List.countP_eq_zero]
    intro a ha
    have := List.eq_of_mem_replicate ha
    subst this
    simp
  · intro l hl
    have := List.eq_of_mem_replicate hl
    omega
  · intro l hl
    have := List.eq_of_mem_replicate hl
    omega
  · rw [Nat.le_iff_lt_or_eq]
    left
    rw [Nat.lt_succ_iff, Nat.le_zero, List.countP_eq_zero]
    intro a ha
    have := List.eq_of_mem_replicate ha
    subst this
    simp

theorem TxInv_step {s t : TxState} (hinv : TxInv s) (hstep : TxStep s t) :
    TxInv t := by
  have hTN : TRANS_NONE = 0 := rfl
  have hTR : TRANS_READ = 1 := rfl
  obtain ⟨hA, hB, hC, hD, hE, hF⟩ := hinv
  cases hstep with
  | beginTrans pre post old wr s2 hconns hbusy =>
    have hmem_old : old ∈ s.conns := by rw [hconns]; simp
    have hmem_pre : ∀ l ∈ pre, l ∈ s.conns := by
      intro l hl; rw [hconns]; simp [hl]
    have hmem_post : ∀ l ∈ post, l ∈ s.conns := by
      intro l hl; rw [hconns]; simp [hl]
    have hL1 : 1 ≤ max old (if wr then 2 else 1) := by
      cases wr <;> simp <;> omega
    have hL2 : max old (if wr then 2 else 1) ≤ 2 := by
      have := hE old hmem_old
      cases wr <;> simp <;> omega
    rw [hconns] at hA hF
    simp only [List.countP_append, List.countP_cons, decide_eq_true_eq] at hA hF
    refine ⟨?_, ?_, ?_, ?_, ?_, ?_⟩
    · show (if old = 0 then s.nTransaction + 1 else s.nTransaction)
        = List.countP (fun l => decide (0 < l))
            (pre ++ (max old (if wr then 2 else 1)) :: post)
      simp only [List.countP_append, List.countP_cons, decide_eq_true_eq]
      split_ifs at hA ⊢ <;> omega
    · intro l hl
      simp only [List.mem_append, List.mem_cons] at hl
      show l ≤ max s.inTransaction (max old (if wr then 2 else 1))
      rcases hl with hl | hl | hl
      · have := hB l (hmem_pre l hl)
        omega
      · omega
      · have := hB l (hmem_post l hl)
        omega
    · left
      show ¬ (max s.inTransaction (max old (if wr then 2 else 1)) = TRANS_NONE)
      simp only [TRANS_NONE]
      omega
    · show max s.inTransaction (max old (if wr then 2 else 1)) ≤ 2
      omega
    · intro l hl
      simp only [List.mem_append, List.mem_cons] at hl
      rcases hl with hl | hl | hl
      · exact hE l (hmem_pre l hl)
      · subst hl; exact hL2
      · exact hE l (hmem_post l hl)
    · show List.countP (fun l => l == 2)
          (pre ++ (max old (if wr then 2 else 1)) :: post) ≤ 1
      simp only [List.countP_append, List.countP_cons, beq_iff_eq] at hF ⊢
      by_cases hw : wr = true
      · have hb := hbusy hw
        have hpre0 : pre.countP (fun l => l == 2) = 0 := by
          rw [List.countP_eq_zero]
          intro a ha
          have := hB a (hmem_pre a ha)
          simp only [beq_iff_eq]
          omega
        have hpost0 : post.countP (fun l => l == 2) = 0 := by
          rw [List.countP_eq_zero]
          intro a ha
          have := hB a (hmem_post a ha)
          simp only [beq_iff_eq]
          omega
        simp only [beq_iff_eq] at hpre0 hpost0
        rw [hpre0, hpost0]
        split_ifs <;> omega
      · have hwf : wr = false := by
          cases wr
          · rfl
          · exact absurd rfl hw
        subst hwf
        simp only [Bool.false_eq_true, if_false] at *
        have := hE old hmem_old
        split_ifs at hF ⊢ <;> omega
  | endTrans pre post old s2 hconns hold =>
    have hmem_old : old ∈ s.conns := by rw [hconns]; simp
    have hmem_pre : ∀ l ∈ pre, l ∈ s.conns := by
      intro l hl; rw [hconns]; simp [hl]
    have hmem_post : ∀ l ∈ post, l ∈ s.conns := by
      intro l hl; rw [hconns]; simp [hl]
    have hitx : 1 ≤ s.inTransaction := le_trans hold (hB old hmem_old)
    have hole : old ≤ 2 := hE old hmem_old
    rw [hconns] at hA hF
    simp only [List.countP_append, List.countP_cons, decide_eq_true_eq,
      beq_iff_eq] at hA hF
    refine ⟨?_, ?_, ?_, ?_, ?_, ?_⟩
    · show s.nTransaction - 1
        = List.countP (fun l => decide (0 < l)) (pre ++ 0 :: post)
      simp only [List.countP_append, List.countP_cons, decide_eq_true_eq]
      split_ifs at hA ⊢ <;> omega
    · intro l hl
      simp only [List.mem_append, List.mem_cons] at hl
      show l ≤ if s.nTransaction - 1 = 0 then TRANS_NONE
               else if old = 2 then TRANS_READ else s.inTransaction
      by_cases hn : s.nTransaction - 1 = 0
      · rw [if_pos hn]
        have h0pre : pre.countP (fun x => decide (0 < x)) = 0 := by
          split_ifs at hA <;> omega
        have h0post : post.countP (fun x => decide (0 < x)) = 0 := by
          split_ifs at hA <;> omega
        have hallpre : ∀ x ∈ pre, x = 0 := by
          intro x hx
          have := List.countP_eq_zero.mp h0pre x hx
          simp only [decide_eq_true_eq] at this
          omega
        have hallpost : ∀ x ∈ post, x = 0 := by
          intro x hx
          have := List.countP_eq_zero.mp h0post x hx
          simp only [decide_eq_true_eq] at this
          omega
        simp only [TRANS_NONE]
        rcases hl with hl | hl | hl
        · rw [hallpre l hl]
        · omega
        · rw [hallpost l hl]
      · rw [if_neg hn]
        by_cases h2 : old = 2
        · rw [if_pos h2]
          subst h2
          have hfmid : (if (2 : Nat) = 2 then 1 else 0) = 1 := if_pos rfl
          rw [hfmid] at hF
          have hpre2 : pre.countP (fun x => x == 2) = 0 := by omega
          have hpost2 : post.countP (fun x => x == 2) = 0 := by omega
          simp only [TRANS_READ]
          rcases hl with hl | hl | hl
          · have hne2 := List.countP_eq_zero.mp hpre2 l hl
            simp only [beq_iff_eq] at hne2
            have := hE l (hmem_pre l hl)
            omega
          · omega
          · have hne2 := List.countP_eq_zero.mp hpost2 l hl
            simp only [beq_iff_eq] at hne2
            have := hE l (hmem_post l hl)
            omega
        · rw [if_neg h2]
          rcases hl with hl | hl | hl
          · exact hB l (hmem_pre l hl)
          · omega
          · exact hB l (hmem_post l hl)
    · by_cases hn : s.nTransaction - 1 = 0
      · right
        exact hn
      · left
        show ¬ ((if s.nTransaction - 1 = 0 then TRANS_NONE
                 else if old = 2 then TRANS_READ else s.inTransaction)
               = TRANS_NONE)
        rw [if_neg hn]
        by_cases h2 : old = 2
        · rw [if_pos h2]
          omega
        · rw [if_neg h2]
          omega
    · show (if s.nTransaction - 1 = 0 then TRANS_NONE
            else if old = 2 then TRANS_READ else s.inTransaction) ≤ 2
      by_cases hn : s.nTransaction - 1 = 0
      · rw [if_pos hn]
        omega
      · rw [if_neg hn]
        by_cases h2 : old = 2
        · rw [if_pos h2]
          omega
        · rw [if_neg h2]
          omega
    · intro l hl
      simp only [List.mem_append, List.mem_cons] at hl
      rcases hl with hl | hl | hl
      · exact hE l (hmem_pre l hl)
      · omega
      · exact hE l (hmem_post l hl)
    · show List.countP (fun l => l == 2) (pre ++ 0 :: post) ≤ 1
      simp only [List.countP_append, List.countP_cons, beq_iff_eq]
      rw [if_neg (by omega : ¬ (0 : Nat) = 2)]
      by_cases h2 : old = 2
      · rw [if_pos h2] at hF
        omega
      · rw [if_neg h2] at hF
        omega

/-- C9: in every reachable shared-transaction state, the `btreeIntegrity`
assertions hold for every attached handle: `pBt->inTransaction` is
`TRANS_NONE` only when `pBt->nTransaction` is zero, and
`pBt->inTransaction` is at least every handle's `p->inTrans`
(`src/btreeInt.h` lines 350-352). -/
theorem btreeIntegrity_reachable (s : TxState) (h : TxReachable s) :
    btreeIntegrity s := by
  have hinv : TxInv s := by
    induction h with
    | init n => exact TxInv_init n
    | step hr hst ih => exact TxInv_step ih hst
  exact ⟨hinv.2.2.1, hinv.2.1⟩

theorem btreeIntegrity_reachable_witness :
    TxReachable (⟨[2, 0], 2, 1⟩ : TxState)
    ∧ btreeIntegrity (⟨[2, 0], 2, 1⟩ : TxState) := by
  have hstep : TxStep ⟨List.replicate 2 0, 0, 0⟩ (⟨[2, 0], 2, 1⟩ : TxState) :=
    TxStep.beginTrans [] [0] 0 true _ rfl (fun _ => Nat.zero_le 1)
  have hreach : TxReachable (⟨[2, 0], 2, 1⟩ : TxState) :=
    TxReachable.step (TxReachable.init 2) hstep
  exact ⟨hreach, btreeIntegrity_reachable _ hreach⟩

/-! ## Freelist ownership (page single-ownership) -/

/-- The pending-byte location, `sqlite3PendingByte = 0x40000000`
(`src/unnamed/part_000` line 276). -/
def PENDING_BYTE : Nat := 0x40000000

/-- The database page the PENDING_BYTE occupies; this page is never used
(`src/btreeInt.h` lines 286-289). -/
def PENDING_BYTE_PAGE (pageSize : Nat) : Nat :=
  PENDING_BYTE / pageSize + 1

/-- Modelled from the spec: the page-ownership view of a database file
(spec sections 3 and 4.3): the page count, the set of pages reachable
from some tree root (page 1, the file header page, is also a tree root),
and the pages on the freelist. -/
structure FlState where
  nPage : Nat
  treePages : List Nat
  freePages : List Nat
deriving DecidableEq

/-- Modelled from the spec: one page-ownership transition (spec section
4.3): allocating a fresh page extends the file, skipping the pending-byte
page, which is never used; allocating from the freelist moves a free page
into a tree; freeing moves a non-header tree page onto the freelist. -/
inductive FlStep (pageSize : Nat) : FlState → FlState → Prop where
  | allocExtend (s : FlState) :
      FlStep pageSize s
        { nPage := if s.nPage + 1 = PENDING_BYTE_PAGE pageSize
                   then s.nPage + 2 else s.nPage + 1,
          treePages := (if s.nPage + 1 = PENDING_BYTE_PAGE pageSize
                        then s.nPage + 2 else s.nPage + 1) :: s.treePages,
          freePages := s.freePages }
  | allocFromFree (p : Nat) (s : FlState) (hp : p ∈ s.freePages) :
      FlStep pageSize s
        { nPage := s.nPage,
          treePages := p :: s.treePages,
          freePages := s.freePages.erase p }
  | freeToList (p : Nat) (s : FlState) (hp : p ∈ s.treePages) (hne : p ≠ 1) :
      FlStep pageSize s
        { nPage := s.nPage,
          treePages := s.treePages.erase p,
          freePages := p :: s.freePages }

/-- Modelled from the spec: ownership states reachable from a fresh
one-page database (page 1 holding the file header and the schema tree
root). -/
inductive FlReachable (pageSize : Nat) : FlState → Prop where
  | init : FlReachable pageSize ⟨1, [1], []⟩
  | step {s t : FlState} : FlReachable pageSize s → FlStep pageSize s t →
      FlReachable pageSize t

/-- The auxiliary ownership invariant. -/
def FlInv (pageSize : Nat) (s : FlState) : Prop :=
  (∀ p, 1 ≤ p → p ≤ s.nPage → p ≠ PENDING_BYTE_PAGE pageSize →
      (p ∈ s.treePages ∨ p ∈ s.freePages))
  ∧ (s.treePages ++ s.freePages).Nodup
  ∧ (∀ p ∈ s.treePages, 1 ≤ p ∧ p ≤ s.nPage ∧ p ≠ PENDING_BYTE_PAGE pageSize)
  ∧ (∀ p ∈ s.freePages,
      1 ≤ p ∧ p ≤ s.nPage ∧ p ≠ PENDING_BYTE_PAGE pageSize ∧ p ≠ 1)
  ∧ 1 ∈ s.treePages

theorem pendingPage_ge {pageSize : Nat} (h1 : 512 ≤ pageSize)
    (h2 : pageSize ≤ 65536) : 16385 ≤ PENDING_BYTE_PAGE pageSize := by
  unfold PENDING_BYTE_PAGE PENDING_BYTE
  have hd : (0x40000000 : Nat) / 65536 ≤ 0x40000000 / pageSize :=
    Nat.div_le_div_left h2 (by omega)
  have he : (0x40000000 : Nat) / 65536 = 16384 := by norm_num
  omega

theorem FlInv_init {pageSize : Nat} (h1 : 512 ≤ pageSize)
    (h2 : pageSize ≤ 65536) : FlInv pageSize ⟨1, [1], []⟩ := by
  have hpend := pendingPage_ge h1 h2
  refine ⟨?_, by simp, ?_, by simp, by simp⟩
  · intro p hp1 hp2 _
    left
    simp only [List.mem_singleton]
    have hp2b : p ≤ 1 := hp2
    omega
  · intro p hp
    simp only [List.mem_singleton] at hp
    subst hp
    exact ⟨le_refl 1, le_refl 1, by omega⟩

theorem FlInv_step {pageSize : Nat} {s t : FlState} (hinv : FlInv pageSize s)
    (hstep : FlStep pageSize s t) : FlInv pageSize t := by
  obtain ⟨hcov, hnd, htree, hfree, h1⟩ := hinv
  have hnd3 := List.nodup_append.mp hnd
  cases hstep with
  | allocExtend s2 =>
    set q : Nat := if s.nPage + 1 = PENDING_BYTE_PAGE pageSize
                   then s.nPage + 2 else s.nPage + 1 with hq
    have hqgt : s.nPage < q := by
      rw [hq]
      split_ifs <;> omega
    have hqle : q ≤ s.nPage + 2 := by
      rw [hq]
      split_ifs <;> omega
    have hqnp : q ≠ PENDING_BYTE_PAGE pageSize := by
      rw [hq]
      split_ifs with hc
      · omega
      · exact hc
    have hqnotin : q ∉ s.treePages ∧ q ∉ s.freePages := by
      constructor
      · intro hc
        have := (htree q hc).2.1
        omega
      · intro hc
        have := (hfree q hc).2.1
        omega
    refine ⟨?_, ?_, ?_, ?_, ?_⟩
    · intro p hp1 hp2 hp3
      simp only at hp2
      by_cases hpq : p = q
      · left
        simp [hpq]
      · by_cases hpn : p ≤ s.nPage
        · rcases hcov p hp1 hpn hp3 with hc | hc
          · left; simp [hc]
          · right; exact hc
        · exfalso
          rw [hq] at hp2 hpq
          split_ifs at hp2 hpq with hc
          · omega
          · omega
    · simp only [List.cons_append, List.nodup_cons]
      constructor
      · intro hc
        rcases List.mem_append.mp hc with hc | hc
        · exact hqnotin.1 hc
        · exact hqnotin.2 hc
      · exact hnd
    · intro p hp
      simp only [List.mem_cons] at hp
      rcases hp with hp | hp
      · subst hp
        refine ⟨by omega, by simp only []; omega, hqnp⟩
      · have := htree p hp
        refine ⟨this.1, by simp only []; omega, this.2.2⟩
    · intro p hp
      simp only at hp
      have := hfree p hp
      refine ⟨this.1, by simp only []; omega, this.2.2.1, this.2.2.2⟩
    · simp only [List.mem_cons]
      right
      exact h1
  | allocFromFree p s2 hp =>
    have hpfacts := hfree p hp
    have hpnt : p ∉ s.treePages := by
      intro hc
      exact hnd3.2.2 hc hp
    refine ⟨?_, ?_, ?_, ?_, ?_⟩
    · intro x hx1 hx2 hx3
      simp only at hx2 ⊢
      by_cases hxp : x = p
      · left
        simp [hxp]
      · rcases hcov x hx1 hx2 hx3 with hc | hc
        · left; simp [hc]
        · right
          exact (List.mem_erase_of_ne hxp).mpr hc
    · simp only [List.cons_append, List.nodup_cons]
      constructor
      · intro hc
        rcases List.mem_append.mp hc with hc | hc
        · exact hpnt hc
        · exact hnd3.2.1.not_mem_erase hc
      · rw [List.nodup_append]
        refine ⟨hnd3.1, hnd3.2.1.erase p, ?_⟩
        intro a ha hc
        exact hnd3.2.2 ha (List.erase_subset p s.freePages hc)
    · intro x hx
      simp only [List.mem_cons] at hx
      rcases hx with hx | hx
      · subst hx
        exact ⟨hpfacts.1, hpfacts.2.1, hpfacts.2.2.1⟩
      · exact htree x hx
    · intro x hx
      simp only at hx
      exact hfree x (List.erase_subset p s.freePages hx)
    · simp only [List.mem_cons]
      right
      exact h1
  | freeToList p s2 hp hne =>
    have hpfacts := htree p hp
    have hpnf : p ∉ s.freePages := by
      intro hc
      exact hnd3.2.2 hp hc
    refine ⟨?_, ?_, ?_, ?_, ?_⟩
    · intro x hx1 hx2 hx3
      simp only at hx2 ⊢
      by_cases hxp : x = p
      · right
        simp [hxp]
      · rcases hcov x hx1 hx2 hx3 with hc | hc
        · left
          exact (List.mem_erase_of_ne hxp).mpr hc
        · right
          simp [hc]
    · rw [List.nodup_append]
      refine ⟨hnd3.1.erase p, ?_, ?_⟩
      · simp only [List.nodup_cons]
        exact ⟨hpnf, hnd3.2.1⟩
      · intro a ha hc
        simp only [List.mem_cons] at hc
        rcases hc with hc | hc
        · subst hc
          exact hnd3.1.not_mem_erase ha
        · exact hnd3.2.2 (List.erase_subset p s.treePages ha) hc
    · intro x hx
      simp only at hx
      exact htree x (List.erase_subset p s.treePages hx)
    · intro x hx
      simp only [List.mem_cons] at hx
      rcases hx with hx | hx
      · subst hx
        exact ⟨hpfacts.1, hpfacts.2.1, hpfacts.2.2, hne⟩
      · exact hfree x hx
    · simp only []
      exact (List.mem_erase_of_ne (by omega : (1 : Nat) ≠ p)).mpr h1

/-- C6 (amended): in every reachable ownership state, every page of the
file that is not reachable from a tree root, not the file header page,
and not the never-used pending-byte page appears exactly once in the
freelist, and no page is owned by both a tree and the freelist or owned
twice.  (Without excluding the pending-byte page the claim fails:
`freelist_closure_counterexample`.) -/
theorem freelist_closure_spec (pageSize : Nat) (s : FlState)
    (h1 : 512 ≤ pageSize) (h2 : pageSize ≤ 65536)
    (hr : FlReachable pageSize s) :
    (∀ p, 1 ≤ p → p ≤ s.nPage → p ∉ s.treePages → p ≠ 1 →
        p ≠ PENDING_BYTE_PAGE pageSize → s.freePages.count p = 1)
    ∧ (∀ p, ¬ (p ∈ s.treePages ∧ p ∈ s.freePages))
    ∧ (s.treePages ++ s.freePages).Nodup := by
  have hinv : FlInv pageSize s := by
    induction hr with
    | init => exact FlInv_init h1 h2
    | step hr hst ih => exact FlInv_step ih hst
  obtain ⟨hcov, hnd, htree, hfree, hone⟩ := hinv
  have hnd3 := List.nodup_append.mp hnd
  refine ⟨?_, ?_, hnd⟩
  · intro p hp1 hp2 hp3 _ hp5
    rcases hcov p hp1 hp2 hp5 with hc | hc
    · exact absurd hc hp3
    · exact List.count_eq_one_of_mem hnd3.2.1 hc
  · intro p hc
    exact hnd3.2.2 hc.1 hc.2

theorem freelist_closure_spec_witness :
    (512 ≤ 512) ∧ (512 ≤ 65536) ∧ FlReachable 512 ⟨1, [1], []⟩
    ∧ ((∀ p, 1 ≤ p → p ≤ (FlState.mk 1 [1] []).nPage →
          p ∉ (FlState.mk 1 [1] []).treePages → p ≠ 1 →
          p ≠ PENDING_BYTE_PAGE 512 →
          (FlState.mk 1 [1] []).freePages.count p = 1)
      ∧ (∀ p, ¬ (p ∈ (FlState.mk 1 [1] []).treePages
            ∧ p ∈ (FlState.mk 1 [1] []).freePages))
      ∧ ((FlState.mk 1 [1] []).treePages
          ++ (FlState.mk 1 [1] []).freePages).Nodup) :=
  ⟨by decide, by decide, FlReachable.init,
   freelist_closure_spec 512 ⟨1, [1], []⟩ (by decide) (by decide)
     FlReachable.init⟩

/-- Modelled from the spec: the ownership state after `k` successive
fresh-page allocations from a new database. -/
def flIter (pageSize : Nat) : Nat → FlState
  | 0 => ⟨1, [1], []⟩
  | k + 1 =>
    let s := flIter pageSize k
    let q := if s.nPage + 1 = PENDING_BYTE_PAGE pageSize
             then s.nPage + 2 else s.nPage + 1
    ⟨q, q :: s.treePages, s.freePages⟩

theorem flIter_succ_free (pageSize k : Nat) :
    (flIter pageSize (k + 1)).freePages = (flIter pageSize k).freePages := rfl

theorem flIter_succ_nPage (pageSize k : Nat) :
    (flIter pageSize (k + 1)).nPage
      = (if (flIter pageSize k).nPage + 1 = PENDING_BYTE_PAGE pageSize
         then (flIter pageSize k).nPage + 2
         else (flIter pageSize k).nPage + 1) := rfl

theorem flIter_succ_tree (pageSize k : Nat) :
    (flIter pageSize (k + 1)).treePages
      = (flIter pageSize (k + 1)).nPage :: (flIter pageSize k).treePages := rfl

theorem flIter_reachable (pageSize k : Nat) :
    FlReachable pageSize (flIter pageSize k) := by
  induction k with
  | zero => exact FlReachable.init
  | succ k ih => exact FlReachable.step ih (FlStep.allocExtend _)

theorem flIter_char (k : Nat) :
    (flIter 65536 k).freePages = []
    ∧ (flIter 65536 k).nPage = (if k + 1 < 16385 then k + 1 else k + 2)
    ∧ ∀ p, p ∈ (flIter 65536 k).treePages ↔
        (1 ≤ p ∧ p ≤ (if k + 1 < 16385 then k + 1 else k + 2)
          ∧ p ≠ 16385) := by
  have hpend : PENDING_BYTE_PAGE 65536 = 16385 := by
    norm_num [PENDING_BYTE_PAGE, PENDING_BYTE]
  induction k with
  | zero =>
    refine ⟨rfl, ?_, ?_⟩
    · rw [if_pos (by omega : 0 + 1 < 16385)]
      rfl
    intro p
    show p ∈ [1] ↔ _
    simp only [List.mem_singleton]
    constructor
    · intro h
      subst h
      norm_num
    · intro h
      have h2 := h.2.1
      rw [if_pos (by omega : 0 + 1 < 16385)] at h2
      omega
  | succ k ih =>
    obtain ⟨ihf, ihn, iht⟩ := ih
    refine ⟨?_, ?_, ?_⟩
    · rw [flIter_succ_free, ihf]
    · rw [flIter_succ_nPage, ihn, hpend]
      split_ifs <;> omega
    · intro p
      rw [flIter_succ_tree, List.mem_cons, iht p,
        flIter_succ_nPage, ihn, hpend]
      split_ifs <;> omega

/-- C6 counterexample: after growing a 65536-byte-page database past the
pending-byte page (page 16385 = 0x40000000/65536 + 1), that page is
within the file, is not the header page, is reachable from no tree root,
and appears zero times (not once) in the freelist, refuting the claim as
stated. -/
theorem freelist_closure_counterexample :
    FlReachable 65536 (flIter 65536 16384)
    ∧ 512 ≤ 65536 ∧ 65536 ≤ 65536
    ∧ ¬ (∀ p, 1 ≤ p → p ≤ (flIter 65536 16384).nPage →
          p ∉ (flIter 65536 16384).treePages → p ≠ 1 →
          (flIter 65536 16384).freePages.count p = 1) := by
  obtain ⟨hf, hn, ht⟩ := flIter_char 16384
  refine ⟨flIter_reachable 65536 16384, by omega, by omega, ?_⟩
  intro hcon
  have h1 : ¬ (16385 ∈ (flIter 65536 16384).treePages) := by
    rw [ht 16385]
    simp
  have h2 : (16385 : Nat) ≤ (flIter 65536 16384).nPage := by
    rw [hn]
    norm_num
  have := hcon 16385 (by omega) h2 h1 (by omega)
  rw [hf] at this
  simp at this

/-! ### C5: the auto-vacuum pointer map -/

/-- Pointer-map entry type 1: the page is a tree root page; the recorded
page number is not used (src/btreeInt.h:324-325,342). -/
def PTRMAP_ROOTPAGE : Nat := 1

/-- Pointer-map entry type 2: the page is an unused (free) page; the recorded
page number is not used (src/btreeInt.h:327-328,343). -/
def PTRMAP_FREEPAGE : Nat := 2

/-- Pointer-map entry type 3: the page is the first page of an overflow list;
the recorded page number identifies the page containing the cell that points
to it (src/btreeInt.h:330-332,344). -/
def PTRMAP_OVERFLOW1 : Nat := 3

/-- Pointer-map entry type 4: the page is a later page of an overflow list;
the recorded page number identifies the previous page of the list
(src/btreeInt.h:334-336,345). -/
def PTRMAP_OVERFLOW2 : Nat := 4

/-- Pointer-map entry type 5: the page is a non-root btree page; the recorded
page number identifies its parent page in the btree
(src/btreeInt.h:338-340,346). -/
def PTRMAP_BTREE : Nat := 5

/-- Modelled from the spec: pointer-map pages are "interleaved at a fixed
stride through the file" (spec section 3).  Each map entry takes 5 bytes, so
a map page with usableSize usable bytes covers the usableSize/5 pages after
it and the stride is usableSize/5 + 1, the first map page being page 2.
This realises the PTRMAP_PAGENO contract of src/btreeInt.h:291-307 (the
ptrmapPageno body itself is absent from src/): for a pointer-map page the
function returns its own argument. -/
def ptrmapPageno (usableSize pgno : Nat) : Nat :=
  if pgno < 2 then 0
  else ((pgno - 2) / (usableSize / 5 + 1)) * (usableSize / 5 + 1) + 2

/-- The PTRMAP_ISPAGE test of src/btreeInt.h:308: a page is a pointer-map
page iff ptrmapPageno maps it to itself. -/
def PTRMAP_ISPAGE (usableSize pgno : Nat) : Bool :=
  ptrmapPageno usableSize pgno == pgno

/-- Modelled from the spec: an auto-vacuum database abstracted to its page
reference graph.  refs lists the live pointers between pages as
(referencing page, pointer-map type of the reference, referenced page);
ptrmap lists the pointer-map entries as
(child page, entry type, recorded page number).  Page 1 is the header page;
pointer-map pages hold the map itself and never receive entries
(src/btreeInt.h:311-340, spec sections 3 and 4.4). -/
structure AvState where
  usableSize : Nat
  nPage : Nat
  refs : List (Nat × Nat × Nat)
  ptrmap : List (Nat × Nat × Nat)

/-- Modelled from the spec: getParent(child) returns the (type, pgno) pair of
the child's pointer-map entry (spec section 4.4). -/
def getParent (s : AvState) (child : Nat) : Option (Nat × Nat) :=
  (s.ptrmap.find? (fun e => e.1 == child)).map (fun e => e.2)

/-- Modelled from the spec: the page number handed to a newly appended page,
namely the slot after the current last page, skipped by one when that slot
must become a pointer-map page (spec section 3). -/
def allocTarget (s : AvState) : Nat :=
  if PTRMAP_ISPAGE s.usableSize (s.nPage + 1) then s.nPage + 2 else s.nPage + 1

/-- Modelled from the spec: the pointer-map-relevant transitions of an
auto-vacuum database (spec section 4.4 and src/btreeInt.h:311-340): creating
a new tree root (entry PTRMAP_ROOTPAGE, page number unused); attaching a
fresh page referenced from an existing non-map page q, as a btree child, the
first overflow page of one of q's cells, or the successor of overflow page q
(the entry records q); and freeing a page out of which nothing points, whose
entry becomes PTRMAP_FREEPAGE with unused page number while every pointer
into it is erased. -/
inductive AvStep : AvState → AvState → Prop where
  | createTree (s : AvState) :
      AvStep s ⟨s.usableSize, allocTarget s, s.refs,
        (allocTarget s, PTRMAP_ROOTPAGE, 0) :: s.ptrmap⟩
  | attach (s : AvState) (q t : Nat)
      (ht : t = PTRMAP_BTREE ∨ t = PTRMAP_OVERFLOW1 ∨ t = PTRMAP_OVERFLOW2)
      (hq1 : 1 ≤ q) (hq2 : q ≤ s.nPage)
      (hqm : PTRMAP_ISPAGE s.usableSize q = false) :
      AvStep s ⟨s.usableSize, allocTarget s,
        (q, t, allocTarget s) :: s.refs,
        (allocTarget s, t, q) :: s.ptrmap⟩
  | freePage (s : AvState) (p told qold : Nat)
      (hmem : (p, told, qold) ∈ s.ptrmap)
      (hout : ∀ r ∈ s.refs, r.1 ≠ p) :
      AvStep s ⟨s.usableSize, s.nPage,
        s.refs.filter (fun r => !(r.2.2 == p)),
        (p, PTRMAP_FREEPAGE, 0) :: s.ptrmap.filter (fun e => !(e.1 == p))⟩

/-- Modelled from the spec: auto-vacuum states reachable from a fresh
one-page database (page 1, the header page, has no pointer-map entry); a
usable size of at least 5 bytes holds one map entry per map page. -/
inductive AvReachable : AvState → Prop where
  | init (u : Nat) (hu : 5 ≤ u) : AvReachable ⟨u, 1, [], []⟩
  | step (s s2 : AvState) (h : AvReachable s) (hs : AvStep s s2) :
      AvReachable s2

lemma isPtrmap_iff {u p : Nat} (hp : 2 ≤ p) :
    PTRMAP_ISPAGE u p = true ↔ (p - 2) % (u / 5 + 1) = 0 := by
  unfold PTRMAP_ISPAGE ptrmapPageno
  rw [if_neg (by omega), beq_iff_eq]
  have key := Nat.div_add_mod (p - 2) (u / 5 + 1)
  constructor
  · intro h
    rw [Nat.mul_comm] at h
    omega
  · intro h
    rw [Nat.mul_comm]
    omega

lemma allocTarget_gt (s : AvState) : s.nPage < allocTarget s := by
  unfold allocTarget
  split_ifs <;> omega

lemma allocTarget_skip (s : AvState) (P : Nat) (h1 : s.nPage < P)
    (h2 : P < allocTarget s) : PTRMAP_ISPAGE s.usableSize P = true := by
  unfold allocTarget at h2
  split_ifs at h2 with h
  · have hP : P = s.nPage + 1 := by omega
    rw [hP]
    exact h
  · omega

lemma allocTarget_not_map (s : AvState) (hu : 5 ≤ s.usableSize)
    (hn : 1 ≤ s.nPage) :
    PTRMAP_ISPAGE s.usableSize (allocTarget s) = false := by
  unfold allocTarget
  split_ifs with h
  · rw [isPtrmap_iff (by omega)] at h
    have hdiv : 1 ≤ s.usableSize / 5 := (Nat.one_le_div_iff (by omega)).mpr hu
    by_contra hc
    rw [Bool.not_eq_false, isPtrmap_iff (by omega), Nat.add_sub_cancel] at hc
    have ha := Nat.div_add_mod (s.nPage + 1 - 2) (s.usableSize / 5 + 1)
    have heq : s.nPage =
        (s.usableSize / 5 + 1) * ((s.nPage + 1 - 2) / (s.usableSize / 5 + 1))
          + 1 := by omega
    have hm1 : s.nPage % (s.usableSize / 5 + 1) = 1 := by
      rw [heq, Nat.mul_add_mod]
      exact Nat.mod_eq_of_lt (by omega)
    omega
  · simp only [Bool.not_eq_true] at h
    exact h

lemma countP_key_zero {l : List (Nat × Nat × Nat)} {T : Nat}
    (h : ∀ e ∈ l, e.1 ≠ T) : l.countP (fun e => e.1 == T) = 0 :=
  List.countP_eq_zero.mpr (fun e he => by simp [h e he])

lemma countP_key_filter_self {l : List (Nat × Nat × Nat)} {p : Nat} :
    (l.filter (fun e => !(e.1 == p))).countP (fun e => e.1 == p) = 0 := by
  rw [List.countP_filter]
  exact List.countP_eq_zero.mpr (fun e _ => by simp)

lemma countP_key_filter_ne {l : List (Nat × Nat × Nat)} {p P : Nat}
    (h : P ≠ p) :
    (l.filter (fun e => !(e.1 == p))).countP (fun e => e.1 == P)
      = l.countP (fun e => e.1 == P) := by
  rw [List.countP_filter]
  refine List.countP_congr (fun e _ => ?_)
  simp only [Bool.and_eq_true, Bool.not_eq_true', beq_iff_eq,
    beq_eq_false_iff_ne]
  constructor
  · exact fun hh => hh.1
  · intro hh
    exact ⟨hh, by omega⟩

/-- Strengthened invariant for auto-vacuum states: entry keys are in-range
non-map pages; every eligible page has exactly one entry; reference targets
are in range; and each entry's content matches the reference graph per its
type (root/free entries record 0 and their page has no referencer; the three
reference types record the unique referencer). -/
def AvInv (s : AvState) : Prop :=
  5 ≤ s.usableSize ∧ 1 ≤ s.nPage
  ∧ (∀ e ∈ s.ptrmap, 2 ≤ e.1 ∧ e.1 ≤ s.nPage
       ∧ PTRMAP_ISPAGE s.usableSize e.1 = false)
  ∧ (∀ P, 2 ≤ P → P ≤ s.nPage → PTRMAP_ISPAGE s.usableSize P = false →
       s.ptrmap.countP (fun e => e.1 == P) = 1)
  ∧ (∀ r ∈ s.refs, 2 ≤ r.2.2 ∧ r.2.2 ≤ s.nPage)
  ∧ (∀ P t q, (P, t, q) ∈ s.ptrmap →
       ((t = PTRMAP_ROOTPAGE ∨ t = PTRMAP_FREEPAGE) →
          q = 0 ∧ ∀ r ∈ s.refs, r.2.2 ≠ P)
       ∧ ((t = PTRMAP_BTREE ∨ t = PTRMAP_OVERFLOW1 ∨ t = PTRMAP_OVERFLOW2) →
          (q, t, P) ∈ s.refs ∧ ∀ r ∈ s.refs, r.2.2 = P → r = (q, t, P)))

lemma AvInv_init (u : Nat) (hu : 5 ≤ u) : AvInv ⟨u, 1, [], []⟩ := by
  unfold AvInv
  dsimp only
  refine ⟨hu, le_refl 1, ?_, ?_, ?_, ?_⟩
  · intro e he
    simp at he
  · intro P h2 h1 _
    exfalso
    omega
  · intro r hr
    simp at hr
  · intro P t q h
    simp at h

lemma AvInv_step {s s2 : AvState} (hinv : AvInv s) (hstep : AvStep s s2) :
    AvInv s2 := by
  obtain ⟨hu, hn, hB, hC, hD, hE⟩ := hinv
  cases hstep with
  | createTree =>
    have hT := allocTarget_gt s
    have hTm := allocTarget_not_map s hu hn
    unfold AvInv
    dsimp only
    refine ⟨hu, by omega, ?_, ?_, ?_, ?_⟩
    · intro e he
      rcases List.mem_cons.mp he with h | h
      · subst h
        exact ⟨by omega, le_refl _, hTm⟩
      · obtain ⟨b1, b2, b3⟩ := hB e h
        exact ⟨b1, by omega, b3⟩
    · intro P h2 hle hm
      by_cases hP : P = allocTarget s
      · subst hP
        rw [List.countP_cons,
          countP_key_zero (fun e he => by have := (hB e he).2.1; omega)]
        simp
      · have hPle : P ≤ s.nPage := by
          by_contra hpc
          have hsk := allocTarget_skip s P (by omega) (by omega)
          simp [hm] at hsk
        have hne : (((allocTarget s, PTRMAP_ROOTPAGE, 0) :
            Nat × Nat × Nat).1 == P) = false := by
          simp only [beq_eq_false_iff_ne]
          omega
        rw [List.countP_cons, hne]
        simpa using hC P h2 hPle hm
    · intro r hr
      obtain ⟨d1, d2⟩ := hD r hr
      exact ⟨d1, by omega⟩
    · intro P t q hm2
      rcases List.mem_cons.mp hm2 with h | h
      · rw [Prod.mk.injEq, Prod.mk.injEq] at h
        obtain ⟨hP, ht2, hq2⟩ := h
        constructor
        · intro _
          refine ⟨hq2, ?_⟩
          intro r hr
          have := (hD r hr).2
          omega
        · intro hbt
          exfalso
          rcases hbt with hh | hh | hh <;> rw [ht2] at hh <;>
            exact absurd hh (by decide)
      · obtain ⟨e1, e2⟩ := hE P t q h
        exact ⟨e1, e2⟩
  | attach q t ht hq1 hq2 hqm =>
    have hT := allocTarget_gt s
    have hTm := allocTarget_not_map s hu hn
    unfold AvInv
    dsimp only
    refine ⟨hu, by omega, ?_, ?_, ?_, ?_⟩
    · intro e he
      rcases List.mem_cons.mp he with h | h
      · subst h
        exact ⟨by omega, le_refl _, hTm⟩
      · obtain ⟨b1, b2, b3⟩ := hB e h
        exact ⟨b1, by omega, b3⟩
    · intro P h2 hle hm
      by_cases hP : P = allocTarget s
      · subst hP
        rw [List.countP_cons,
          countP_key_zero (fun e he => by have := (hB e he).2.1; omega)]
        simp
      · have hPle : P ≤ s.nPage := by
          by_contra hpc
          have hsk := allocTarget_skip s P (by omega) (by omega)
          simp [hm] at hsk
        have hne : (((allocTarget s, t, q) : Nat × Nat × Nat).1 == P)
            = false := by
          simp only [beq_eq_false_iff_ne]
          omega
        rw [List.countP_cons, hne]
        simpa using hC P h2 hPle hm
    · intro r hr
      rcases List.mem_cons.mp hr with h | h
      · subst h
        refine ⟨?_, le_refl _⟩
        dsimp only
        omega
      · obtain ⟨d1, d2⟩ := hD r h
        exact ⟨d1, by omega⟩
    · intro P t2 q2 hm2
      rcases List.mem_cons.mp hm2 with h | h
      · rw [Prod.mk.injEq, Prod.mk.injEq] at h
        obtain ⟨hP, ht2, hq2e⟩ := h
        constructor
        · intro hroot
          exfalso
          rcases ht with hh | hh | hh <;> rcases hroot with h2 | h2 <;>
            rw [ht2, hh] at h2 <;> exact absurd h2 (by decide)
        · intro _
          subst hP
          subst ht2
          subst hq2e
          refine ⟨List.mem_cons_self _ _, ?_⟩
          intro r hr htg
          rcases List.mem_cons.mp hr with h | h
          · exact h
          · exfalso
            have := (hD r h).2
            omega
      · obtain ⟨e1, e2⟩ := hE P t2 q2 h
        have hPle : P ≤ s.nPage := (hB _ h).2.1
        constructor
        · intro hroot
          obtain ⟨hq0, hnoref⟩ := e1 hroot
          refine ⟨hq0, ?_⟩
          intro r hr
          rcases List.mem_cons.mp hr with hh | hh
          · subst hh
            dsimp only
            omega
          · exact hnoref r hh
        · intro hbt
          obtain ⟨hmemr, huniq⟩ := e2 hbt
          refine ⟨List.mem_cons_of_mem _ hmemr, ?_⟩
          intro r hr htg
          rcases List.mem_cons.mp hr with hh | hh
          · exfalso
            subst hh
            dsimp only at htg
            omega
          · exact huniq r hh htg
  | freePage p told qold hmem hout =>
    obtain ⟨hp2, hple, hpm⟩ := hB _ hmem
    unfold AvInv
    dsimp only
    refine ⟨hu, hn, ?_, ?_, ?_, ?_⟩
    · intro e he
      rcases List.mem_cons.mp he with h | h
      · subst h
        exact ⟨hp2, hple, hpm⟩
      · exact hB e (List.mem_of_mem_filter h)
    · intro P h2 hle hm
      by_cases hP : P = p
      · subst hP
        rw [List.countP_cons, countP_key_filter_self]
        simp
      · have hne : (((p, PTRMAP_FREEPAGE, 0) : Nat × Nat × Nat).1 == P)
            = false := by
          simp only [beq_eq_false_iff_ne]
          omega
        rw [List.countP_cons, hne, countP_key_filter_ne hP]
        simpa using hC P h2 hle hm
    · intro r hr
      exact hD r (List.mem_of_mem_filter hr)
    · intro P t2 q2 hm2
      rcases List.mem_cons.mp hm2 with h | h
      · rw [Prod.mk.injEq, Prod.mk.injEq] at h
        obtain ⟨hP, ht2, hq2e⟩ := h
        constructor
        · intro _
          refine ⟨hq2e, ?_⟩
          intro r hr
          have hpr := List.of_mem_filter hr
          simp only [Bool.not_eq_true', beq_eq_false_iff_ne] at hpr
          omega
        · intro hbt
          exfalso
          rcases hbt with hh | hh | hh <;> rw [ht2] at hh <;>
            exact absurd hh (by decide)
      · have hkey := List.of_mem_filter h
        simp only [Bool.not_eq_true', beq_eq_false_iff_ne] at hkey
        obtain ⟨e1, e2⟩ := hE P t2 q2 (List.mem_of_mem_filter h)
        constructor
        · intro hroot
          obtain ⟨hq0, hnoref⟩ := e1 hroot
          exact ⟨hq0, fun r hr => hnoref r (List.mem_of_mem_filter hr)⟩
        · intro hbt
          obtain ⟨hmemr, huniq⟩ := e2 hbt
          refine ⟨?_, ?_⟩
          · refine List.mem_filter.mpr ⟨hmemr, ?_⟩
            simp only [Bool.not_eq_true', beq_eq_false_iff_ne]
            exact hkey
          · intro r hr htg
            exact huniq r (List.mem_of_mem_filter hr) htg

lemma AvInv_reachable {s : AvState} (h : AvReachable s) : AvInv s := by
  induction h with
  | init u hu => exact AvInv_init u hu
  | step s s2 h hs ih => exact AvInv_step ih hs

/-- C5 (amended): with auto-vacuum enabled, in every reachable state every
page P other than page 1 and the pointer-map pages has exactly one
pointer-map entry, and getParent(P) identifies the unique page holding a
reference to P exactly when the entry type is one of PTRMAP_BTREE,
PTRMAP_OVERFLOW1 or PTRMAP_OVERFLOW2; for PTRMAP_ROOTPAGE and
PTRMAP_FREEPAGE entries the recorded page number is unused (zero) and no
page holds a reference to P at all (src/btreeInt.h:324-340). -/
theorem ptrmap_entry_spec (s : AvState) (hr : AvReachable s) :
    ∀ P, 2 ≤ P → P ≤ s.nPage → PTRMAP_ISPAGE s.usableSize P = false →
      s.ptrmap.countP (fun e => e.1 == P) = 1
      ∧ ∀ t q, getParent s P = some (t, q) →
          ((t = PTRMAP_BTREE ∨ t = PTRMAP_OVERFLOW1 ∨ t = PTRMAP_OVERFLOW2) →
            (q, t, P) ∈ s.refs ∧ ∀ r ∈ s.refs, r.2.2 = P → r = (q, t, P))
          ∧ ((t = PTRMAP_ROOTPAGE ∨ t = PTRMAP_FREEPAGE) →
            q = 0 ∧ ∀ r ∈ s.refs, r.2.2 ≠ P) := by
  obtain ⟨hu, hn, hB, hC, hD, hE⟩ := AvInv_reachable hr
  intro P h2 hle hm
  refine ⟨hC P h2 hle hm, ?_⟩
  intro t q hgp
  unfold getParent at hgp
  cases hfind : s.ptrmap.find? (fun e => e.1 == P) with
  | none =>
    rw [hfind] at hgp
    simp at hgp
  | some e =>
    rw [hfind] at hgp
    simp only [Option.map_some', Option.some.injEq] at hgp
    have hmem := List.mem_of_find?_eq_some hfind
    have hpred := List.find?_some hfind
    obtain ⟨a, bc⟩ := e
    have ha : a = P := by simpa using hpred
    have hbc : bc = (t, q) := hgp
    rw [ha, hbc] at hmem
    obtain ⟨E1, E2⟩ := hE P t q hmem
    exact ⟨E2, E1⟩

/-- C5 witness: in the reachable two-page state where page 3 is a btree
child of page 1 (page 2 being the first pointer-map page at usable size
1024), page 3 has exactly one map entry and its PTRMAP_BTREE entry names
page 1, the page holding the reference to page 3. -/
theorem ptrmap_entry_spec_witness :
    ((1 : Nat), PTRMAP_BTREE, (3 : Nat)) ∈
      (⟨1024, 3, [(1, PTRMAP_BTREE, 3)], [(3, PTRMAP_BTREE, 1)]⟩
        : AvState).refs
    ∧ (⟨1024, 3, [(1, PTRMAP_BTREE, 3)], [(3, PTRMAP_BTREE, 1)]⟩
        : AvState).ptrmap.countP (fun e => e.1 == 3) = 1 := by
  have hr : AvReachable
      ⟨1024, 3, [(1, PTRMAP_BTREE, 3)], [(3, PTRMAP_BTREE, 1)]⟩ := by
    have h0 := AvReachable.init 1024 (by decide)
    exact AvReachable.step _ _ h0
      (AvStep.attach ⟨1024, 1, [], []⟩ 1 PTRMAP_BTREE (Or.inl rfl)
        (by decide) (by decide) (by decide))
  have h := ptrmap_entry_spec _ hr 3 (by decide) (by decide) (by decide)
  exact ⟨((h.2 PTRMAP_BTREE 1 (by decide)).1 (Or.inl rfl)).1, h.1⟩

/-- C5 counterexample: a freshly created second tree root (page 3 at usable
size 1024, reachable in one step) has a PTRMAP_ROOTPAGE entry, but no page
anywhere holds a reference to it, so getParent cannot identify a page
holding a reference to it: the claim as stated fails at every root page
other than page 1. -/
theorem ptrmap_entry_counterexample :
    AvReachable ⟨1024, 3, [], [(3, PTRMAP_ROOTPAGE, 0)]⟩
    ∧ 2 ≤ 3
    ∧ 3 ≤ (⟨1024, 3, [], [(3, PTRMAP_ROOTPAGE, 0)]⟩ : AvState).nPage
    ∧ PTRMAP_ISPAGE 1024 3 = false
    ∧ ¬ (∃ t q,
          getParent ⟨1024, 3, [], [(3, PTRMAP_ROOTPAGE, 0)]⟩ 3 = some (t, q)
          ∧ (q, t, 3) ∈
            (⟨1024, 3, [], [(3, PTRMAP_ROOTPAGE, 0)]⟩ : AvState).refs) := by
  refine ⟨?_, by decide, by decide, by decide, ?_⟩
  · exact AvReachable.step _ _ (AvReachable.init 1024 (by decide))
      (AvStep.createTree ⟨1024, 1, [], []⟩)
  · rintro ⟨t, q, hgp, hmem⟩
    simp at hmem
